import Mathlib

/-!
Verification development for the `dir2opds` OPDS server
(`internal/service/service.go`, built with Go 1.16 per the repository
Dockerfile).

The Go source is shallowly embedded below:

* the filesystem visible to the service is a value of type `FSNode`
  (the configured `DirRoot` is the root of this tree; request paths are
  resolved to `DirRoot`-relative segment lists);
* `os.FileInfo` is reduced to the fields the program reads (`Name()`,
  `ModTime()`, `IsDir()`); modification times are integers;
* fallible Go operations whose errors the program drops are modelled
  with `Option`: in `getPathType` a failed `os.Stat` leaves a nil
  `os.FileInfo` on which `isFile` calls `IsDir`, a run-time panic,
  modelled as the `none` result;
* `sort.Slice` is embedded as the Go 1.16 `sort` package algorithm
  (quicksort with median-of-three pivoting, a depth-limited fall back to
  heapsort, and a shell-sort pass plus insertion sort for ranges of at
  most 12 elements), operating on lists with an index-swap primitive;
* all recursion is structural (on explicit fuel where the Go code uses
  unbounded loops), so every definition evaluates inside the kernel.
-/

namespace Dir2opds

/-! ### Byte-wise string comparison (`strings.Compare(a, b) < 0`)

Go compares strings byte-wise; on valid UTF-8 the byte order agrees with
the code-point order used here. -/

/-- Strict lexicographic order on character lists, comparing code points,
as Go's `strings.Compare(x, y) < 0` compares bytes. -/
def charListLt : List Char → List Char → Bool
  | [], [] => false
  | [], _ :: _ => true
  | _ :: _, [] => false
  | a :: as, b :: bs =>
    if a.toNat < b.toNat then true
    else if b.toNat < a.toNat then false
    else charListLt as bs

/-- `strings.Compare(x, y) < 0` from `sortByTitle` (byte-wise `<`). -/
def strLtB (x y : String) : Bool := charListLt x.data y.data

/-! ### `path/filepath.Ext`

`Ext` scans backwards from the end of the path and returns the suffix
starting at the last dot of the final path element (empty if that
element has no dot). -/

/-- Backwards scan of `filepath.Ext`: the argument is the reversed
character list of the path, `acc` the suffix collected so far. -/
def extScan : List Char → List Char → String
  | [], _ => ""
  | c :: rest, acc =>
    if c = '/' then ""
    else if c = '.' then String.mk (c :: acc)
    else extScan rest (c :: acc)

/-- `filepath.Ext` (used by `getRel` and `getType`). -/
def filepathExt (s : String) : String := extScan s.data.reverse []

/-! ### `strings.TrimPrefix(urlPath, "/")` and `strings.Title` -/

/-- `strings.TrimPrefix(s, "/")` as used on line 77 of service.go. -/
def trimLeadingSlash (s : String) : String :=
  match s.data with
  | '/' :: rest => String.mk rest
  | _ => s

/-- `strings.isSeparator` restricted to the ASCII branch of the Go
code: digits, letters and underscore are not separators, every other
ASCII character is.  Characters above `0x7F` are treated as letters
(the service only ever title-cases request paths; the Unicode tables of
the Go runtime are out of scope). -/
def isSeparatorGo (c : Char) : Bool :=
  if c.toNat ≤ 0x7F then
    if ('0' ≤ c ∧ c ≤ '9') ∨ ('a' ≤ c ∧ c ≤ 'z') ∨ ('A' ≤ c ∧ c ≤ 'Z') ∨ c = '_'
    then false else true
  else false

/-- ASCII upper-casing, the `unicode.ToTitle` of ASCII letters. -/
def toUpperGo (c : Char) : Char :=
  if 'a' ≤ c ∧ c ≤ 'z' then Char.ofNat (c.toNat - 32) else c

/-- The character map of `strings.Title`: upper-case every character
that follows a separator, threading the previous character. -/
def titleScan : Char → List Char → List Char
  | _, [] => []
  | prev, c :: rest =>
    (if isSeparatorGo prev then toUpperGo c else c) :: titleScan c rest

/-- `strings.Title` (the feed title on line 77 of service.go); the
initial previous character is a space, so the first letter is
capitalized. -/
def stringsTitle (s : String) : String := String.mk (titleScan ' ' s.data)

/-! ### `net/url` percent-coding -/

/-- Value of a hexadecimal digit, `none` otherwise (`url.ishex`). -/
def hexVal (c : Char) : Option Nat :=
  if '0' ≤ c ∧ c ≤ '9' then some (c.toNat - '0'.toNat)
  else if 'a' ≤ c ∧ c ≤ 'f' then some (c.toNat - 'a'.toNat + 10)
  else if 'A' ≤ c ∧ c ≤ 'F' then some (c.toNat - 'A'.toNat + 10)
  else none

/-- Character list form of `url.PathUnescape`: every `%XX` is decoded
(including `%2F`), a `%` not followed by two hex digits is
`url.EscapeError`, every other character passes through. -/
def unescapeChars : List Char → Option (List Char)
  | [] => some []
  | '%' :: rest =>
    match rest with
    | c1 :: c2 :: rest' =>
      match hexVal c1, hexVal c2 with
      | some hi, some lo =>
        match unescapeChars rest' with
        | some out => some (Char.ofNat (16 * hi + lo) :: out)
        | none => none
      | _, _ => none
    | _ => none
  | c :: rest =>
    match unescapeChars rest with
    | some out => some (c :: out)
    | none => none

/-- `url.PathUnescape(req.URL.Path)` (line 65 of service.go); `none` is
the error return that makes the handler bail out. -/
def pathUnescape (s : String) : Option String :=
  match unescapeChars s.data with
  | some cs => some (String.mk cs)
  | none => none

/-- Upper-case hex digits, as `url.escape` uses `"0123456789ABCDEF"`. -/
def hexDigitUpper (n : Nat) : Char :=
  if n < 10 then Char.ofNat ('0'.toNat + n) else Char.ofNat ('A'.toNat + n - 10)

/-- `url.shouldEscape(c, encodePathSegment)`: keep ASCII alphanumerics,
`-_.~` and the sub-delimiters `$&+:=@`; escape `/ ; , ?` and everything
else. -/
def shouldEscapeSeg (c : Char) : Bool :=
  if ('a' ≤ c ∧ c ≤ 'z') ∨ ('A' ≤ c ∧ c ≤ 'Z') ∨ ('0' ≤ c ∧ c ≤ '9') then false
  else if c = '-' ∨ c = '_' ∨ c = '.' ∨ c = '~' then false
  else if c = '$' ∨ c = '&' ∨ c = '+' ∨ c = ':' ∨ c = '=' ∨ c = '@' then false
  else true

/-- `url.PathEscape` on the characters of a string (code points stand
in for bytes; the paths the service escapes are ASCII). -/
def pathEscapeChars : List Char → List Char
  | [] => []
  | c :: rest =>
    if shouldEscapeSeg c then
      '%' :: hexDigitUpper (c.toNat / 16) :: hexDigitUpper (c.toNat % 16)
        :: pathEscapeChars rest
    else c :: pathEscapeChars rest

/-- `url.PathEscape` (entry link hrefs in the handler). -/
def pathEscape (s : String) : String := String.mk (pathEscapeChars s.data)

/-! ### Request path resolution

`filepath.Join(s.DirRoot, urlPath)` cleans the concatenated path.  The
embedding represents `fPath` as the list of `DirRoot`-relative path
segments; `..` pops a segment, and a path that climbs above `DirRoot`
leaves the modelled tree (`none`), which no claim exercises. -/

/-- Split a string on `/` (empty segments preserved, cleaned later). -/
def splitSlashAux : List Char → List Char → List String
  | [], acc => [String.mk acc.reverse]
  | '/' :: rest, acc => String.mk acc.reverse :: splitSlashAux rest []
  | c :: rest, acc => splitSlashAux rest (c :: acc)

/-- Split a path string on `/`. -/
def splitSlash (s : String) : List String := splitSlashAux s.data []

/-- `filepath.Clean` on segment lists: drop empty and `.` segments, let
`..` pop; popping past `DirRoot` leaves the modelled tree. -/
def cleanSegsAux : List String → List String → Option (List String)
  | [], acc => some acc.reverse
  | s :: rest, acc =>
    if s = "" ∨ s = "." then cleanSegsAux rest acc
    else if s = ".." then
      match acc with
      | [] => none
      | _ :: acc' => cleanSegsAux rest acc'
    else cleanSegsAux rest (s :: acc)

/-- `filepath.Join(s.DirRoot, urlPath)` as `DirRoot`-relative segments. -/
def resolveSegs (urlPath : String) : Option (List String) :=
  cleanSegsAux (splitSlash urlPath) []

/-! ### Filesystem model and `getPathType` -/

mutual
/-- A filesystem entry: a regular file with its modification time, or a
directory with its named children. -/
inductive FSNode where
  | file (modTime : Int) : FSNode
  | dir (children : FSList) : FSNode

/-- A directory listing (a list type of its own so that sizes and walks
are plain structural recursions). -/
inductive FSList where
  | nil : FSList
  | cons (name : String) (node : FSNode) (rest : FSList) : FSList
end

/-- Directory listing from a plain list. -/
def FSList.ofList : List (String × FSNode) → FSList
  | [] => .nil
  | (nm, c) :: rest => .cons nm c (FSList.ofList rest)

/-- Directory listing to a plain list. -/
def FSList.toList : FSList → List (String × FSNode)
  | .nil => []
  | .cons nm c rest => (nm, c) :: FSList.toList rest

/-- Directory node built from a plain list of children. -/
def FSNode.dirL (cs : List (String × FSNode)) : FSNode := .dir (FSList.ofList cs)

mutual
/-- Size of a tree, the fuel bound of the walk. -/
def nodeSize : FSNode → Nat
  | .file _ => 1
  | .dir cs => 1 + listSize cs

/-- Size of a directory listing. -/
def listSize : FSList → Nat
  | .nil => 0
  | .cons _ c rest => 1 + nodeSize c + listSize rest
end

/-- `isFile(fi) = !fi.IsDir()` (line 214 of service.go) on an existing
entry. -/
def isFile : FSNode → Bool
  | .file _ => true
  | .dir _ => false

/-- First child with the given name (directory entries of a real
filesystem have unique names). -/
def findChild : FSList → String → Option FSNode
  | .nil, _ => none
  | .cons nm c rest, s => if nm = s then some c else findChild rest s

/-- `os.Stat` against the modelled tree: follow the segments from the
root; `none` is the stat error for a missing entry. -/
def osStat : FSNode → List String → Option FSNode
  | n, [] => some n
  | .file _, _ :: _ => none
  | .dir cs, s :: rest =>
    match findChild cs s with
    | some c => osStat c rest
    | none => none

/-- Insert a named entry into a name-sorted listing (byte order). -/
def insertPairByName (p : String × FSNode) :
    List (String × FSNode) → List (String × FSNode)
  | [] => [p]
  | q :: rest =>
    if strLtB q.1 p.1 then q :: insertPairByName p rest else p :: q :: rest

/-- Directory entries sorted by name, the listing order of
`ioutil.ReadDir` and `filepath.WalkDir`. -/
def sortPairsByName : List (String × FSNode) → List (String × FSNode)
  | [] => []
  | p :: rest => insertPairByName p (sortPairsByName rest)

/-- `ioutil.ReadDir(dirpath)` (line 204): the sorted children of an
existing directory; a stat failure or a non-directory yields the empty
listing (the error is dropped by the program). -/
def readDir (root : FSNode) (segs : List String) : List (String × FSNode) :=
  match osStat root segs with
  | some (.dir cs) => sortPairsByName cs.toList
  | _ => []

/-- The `pathType*` constants of service.go (lines 34–38). -/
inductive PathType where
  | pathTypeFile : PathType
  | pathTypeDirOfDirs : PathType
  | pathTypeDirOfFiles : PathType
deriving DecidableEq, Repr

/-- `getPathType` (lines 198–212).  The `os.Stat` error is ignored; on
a missing path `isFile` dereferences the nil `os.FileInfo`, a run-time
panic, modelled as `none`. -/
def getPathType (root : FSNode) (segs : List String) : Option PathType :=
  match osStat root segs with
  | none => none
  | some fi =>
    if isFile fi then some .pathTypeFile
    else if (readDir root segs).any (fun e => isFile e.2) then
      some .pathTypeDirOfFiles
    else some .pathTypeDirOfDirs

/-! ### `getRel` and `getType` (lines 171–196) -/

/-- `getRel(name, pathType)`. -/
def getRel (name : String) (pathType : PathType) : String :=
  if pathType = .pathTypeDirOfFiles ∨ pathType = .pathTypeDirOfDirs then
    "subsection"
  else
    let ext := filepathExt name
    if ext = ".png" ∨ ext = ".jpg" ∨ ext = ".jpeg" ∨ ext = ".gif" then
      "http://opds-spec.org/image/thumbnail"
    else
      "http://opds-spec.org/acquisition"

/-- The navigation feed media type (line 58). -/
def navigationType : String := "application/atom+xml;profile=opds-catalog;kind=navigation"

/-- The acquisition feed media type (lines 155 and 190). -/
def acquisitionType : String := "application/atom+xml;profile=opds-catalog;kind=acquisition"

/-- `getType(name, pathType)`; `mime.TypeByExtension` is the injected
table `mimeDB` (the process seeds it with the e-book types in `init`).
The `default` arm of the Go switch is unreachable: `pathType` only ever
holds the three constants. -/
def getType (mimeDB : String → String) (name : String) (pathType : PathType) : String :=
  match pathType with
  | .pathTypeFile => mimeDB (filepathExt name)
  | .pathTypeDirOfFiles => acquisitionType
  | .pathTypeDirOfDirs => navigationType

/-! ### The Go 1.16 `sort` package

`sortByLatest` and `sortByTitle` call `sort.Slice`, which in the Go
version pinned by the Dockerfile (`golang:1.16`) runs `quickSort_func`:
quicksort with median-of-three pivoting, a heapsort fall back when the
depth budget `maxDepth(n)` is exhausted, and — for ranges of at most 12
elements — one shell-sort pass with gap 6 followed by insertion sort.
The slice is a `List`, `data.Swap` is `lswap`, and loops recurse on
explicit fuel chosen at least as large as their iteration count (the
fuel-exhausted branches are unreachable). -/

section GoSort

variable {α : Type} [Inhabited α]

/-- Read `data[i]`; the sort only produces in-range indices. -/
def lget (l : List α) (i : Nat) : α := l.getD i default

/-- `data.Swap(i, j)`; out-of-range indices (never produced by the
algorithm) leave the list unchanged. -/
def lswap (l : List α) (i j : Nat) : List α :=
  if i < l.length ∧ j < l.length then
    (l.set i (lget l j)).set j (lget l i)
  else l

/-- Inner loop of `insertionSort`:
`for j := i; j > a && data.Less(j, j-1); j--`, recursing on `j`. -/
def insertionInner (less : α → α → Bool) (a : Nat) : List α → Nat → List α
  | l, 0 => l
  | l, j+1 =>
    if a < j+1 ∧ less (lget l (j+1)) (lget l j) = true then
      insertionInner less a (lswap l (j+1) j) j
    else l

/-- Outer loop of `insertionSort`: `for i := a+1; i < b; i++`, with the
remaining iteration count as fuel. -/
def insertionLoop (less : α → α → Bool) (a : Nat) : List α → Nat → Nat → List α
  | l, _, 0 => l
  | l, i, fuel+1 => insertionLoop less a (insertionInner less a l i) (i+1) fuel

/-- `insertionSort(data, a, b)`. -/
def insertionSortGo (less : α → α → Bool) (l : List α) (a b : Nat) : List α :=
  insertionLoop less a l (a+1) (b - (a+1))

/-- `siftDown(data, lo, hi, first)` of heapsort, recursing on fuel
(the root index strictly grows, so `hi` iterations suffice). -/
def siftDown (less : α → α → Bool) : List α → Nat → Nat → Nat → Nat → List α
  | l, _, _, _, 0 => l
  | l, root, hi, first, fuel+1 =>
    let child := 2 * root + 1
    if child ≥ hi then l
    else
      let child :=
        if child + 1 < hi ∧ less (lget l (first + child)) (lget l (first + child + 1)) = true
        then child + 1 else child
      if less (lget l (first + root)) (lget l (first + child)) = false then l
      else siftDown less (lswap l (first + root) (first + child)) child hi first fuel

/-- First loop of `heapSort`: `for i := (hi-1)/2; i >= 0; i--`; the
remaining iteration count is `k`, the current root `k - 1`. -/
def heapBuild (less : α → α → Bool) (first hi : Nat) : List α → Nat → List α
  | l, 0 => l
  | l, k+1 => heapBuild less first hi (siftDown less l k hi first (hi + 1)) k

/-- Second loop of `heapSort`: `for i := hi-1; i >= 0; i--` popping the
maximum to the end. -/
def heapPop (less : α → α → Bool) (first : Nat) : List α → Nat → List α
  | l, 0 => l
  | l, k+1 => heapPop less first (siftDown less (lswap l first (first + k)) 0 k first (k + 1)) k

/-- `heapSort(data, a, b)`. -/
def heapSortGo (less : α → α → Bool) (l : List α) (a b : Nat) : List α :=
  let first := a
  let hi := b - a
  let l := heapBuild less first hi l ((hi - 1) / 2 + 1)
  heapPop less first l hi

/-- `medianOfThree(data, m1, m0, m2)`. -/
def medianOfThree (less : α → α → Bool) (l : List α) (m1 m0 m2 : Nat) : List α :=
  let l := if less (lget l m1) (lget l m0) then lswap l m1 m0 else l
  if less (lget l m2) (lget l m1) then
    let l := lswap l m2 m1
    if less (lget l m1) (lget l m0) then lswap l m1 m0 else l
  else l

/-- Index scan `for ; a < c && data.Less(a, pivot); a++` of `doPivot`
(also the `a`-scan of the duplicate-protection loop, with `c := b`). -/
def scanLtForward (less : α → α → Bool) (l : List α) (pivot c : Nat) : Nat → Nat → Nat
  | a, 0 => a
  | a, fuel+1 =>
    if a < c ∧ less (lget l a) (lget l pivot) = true then
      scanLtForward less l pivot c (a+1) fuel
    else a

/-- Index scan `for ; b < c && !data.Less(pivot, b); b++` of `doPivot`. -/
def scanLeForward (less : α → α → Bool) (l : List α) (pivot c : Nat) : Nat → Nat → Nat
  | b, 0 => b
  | b, fuel+1 =>
    if b < c ∧ less (lget l pivot) (lget l b) = false then
      scanLeForward less l pivot c (b+1) fuel
    else b

/-- Index scan `for ; b < c && data.Less(pivot, c-1); c--` of `doPivot`. -/
def scanGtBackward (less : α → α → Bool) (l : List α) (pivot b : Nat) : Nat → Nat → Nat
  | c, 0 => c
  | c, fuel+1 =>
    if b < c ∧ less (lget l pivot) (lget l (c - 1)) = true then
      scanGtBackward less l pivot b (c-1) fuel
    else c

/-- Index scan `for ; a < b && !data.Less(b-1, pivot); b--` of the
duplicate-protection loop of `doPivot`. -/
def scanEqBackward (less : α → α → Bool) (l : List α) (pivot a : Nat) : Nat → Nat → Nat
  | b, 0 => b
  | b, fuel+1 =>
    if a < b ∧ less (lget l (b - 1)) (lget l pivot) = false then
      scanEqBackward less l pivot a (b-1) fuel
    else b

/-- Main partition loop of `doPivot` over the state `(data, b, c)`. -/
def partitionLoop (less : α → α → Bool) (pivot : Nat) :
    List α → Nat → Nat → Nat → List α × Nat × Nat
  | l, b, c, 0 => (l, b, c)
  | l, b, c, fuel+1 =>
    let b' := scanLeForward less l pivot c b (c + 1)
    let c' := scanGtBackward less l pivot b' c (c + 1)
    if b' ≥ c' then (l, b', c')
    else partitionLoop less pivot (lswap l b' (c' - 1)) (b' + 1) (c' - 1) fuel

/-- Duplicate-protection loop of `doPivot` over the state `(data, a, b)`. -/
def protectLoop (less : α → α → Bool) (pivot : Nat) :
    List α → Nat → Nat → Nat → List α × Nat × Nat
  | l, a, b, 0 => (l, a, b)
  | l, a, b, fuel+1 =>
    let b' := scanEqBackward less l pivot a b (b + 1)
    let a' := scanLtForward less l pivot b' a (b' + 1)
    if a' ≥ b' then (l, a', b')
    else protectLoop less pivot (lswap l a' (b' - 1)) (a' + 1) (b' - 1) fuel

/-- The Tukey-ninther pivot preparation of `doPivot` (only for ranges
longer than 40). -/
def nintherStage (less : α → α → Bool) (l : List α) (lo hi m : Nat) : List α :=
  if hi - lo > 40 then
    let s := (hi - lo) / 8
    medianOfThree less
      (medianOfThree less
        (medianOfThree less l lo (lo + s) (lo + 2 * s)) m (m - s) (m + s))
      (hi - 1) (hi - 1 - s) (hi - 1 - 2 * s)
  else l

/-- The duplicate-detection block of `doPivot` deciding `protect`,
returning the updated `(data, b, c, protect)`. -/
def dupsAdjust (less : α → α → Bool) (l : List α) (pivot m lo hi b c : Nat) :
    List α × Nat × Nat × Bool :=
  if hi - c < 5 then (l, b, c, true)
  else if hi - c < (hi - lo) / 4 then
    let r1 :=
      if less (lget l pivot) (lget l (hi - 1)) = false then
        (lswap l c (hi - 1), c + 1, 1)
      else (l, c, 0)
    let r2 :=
      if less (lget r1.1 (b - 1)) (lget r1.1 pivot) = false then (b - 1, r1.2.2 + 1)
      else (b, r1.2.2)
    let r3 :=
      if less (lget r1.1 m) (lget r1.1 pivot) = false then
        (lswap r1.1 m (r2.1 - 1), r2.1 - 1, r2.2 + 1)
      else (r1.1, r2.1, r2.2)
    (r3.1, r3.2.1, r1.2.1, r3.2.2 > 1)
  else (l, b, c, false)

/-- The conditional duplicate-protection pass of `doPivot`, returning
the updated `(data, b)`. -/
def protectStage (less : α → α → Bool) (pivot : Nat) (l : List α) (a b : Nat)
    (protect : Bool) : List α × Nat :=
  if protect then
    let pr := protectLoop less pivot l a b (b + 1)
    (pr.1, pr.2.2)
  else (l, b)

/-- `doPivot(data, lo, hi)` returning the updated data and
`(midlo, midhi)`. -/
def doPivot (less : α → α → Bool) (l : List α) (lo hi : Nat) : List α × Nat × Nat :=
  let m := (lo + hi) / 2
  let l1 := nintherStage less l lo hi m
  let l2 := medianOfThree less l1 lo m (hi - 1)
  let pivot := lo
  let a := scanLtForward less l2 pivot (hi - 1) (lo + 1) hi
  let p := partitionLoop less pivot l2 a (hi - 1) (hi + 1)
  let q := dupsAdjust less p.1 pivot m lo hi p.2.1 p.2.2
  let r := protectStage less pivot q.1 a q.2.1 q.2.2.2
  (lswap r.1 pivot (r.2 - 1), r.2 - 1, q.2.2.1)

/-- Shell-sort pass with gap 6: `for i := a+6; i < b; i++`. -/
def shellLoop (less : α → α → Bool) : List α → Nat → Nat → List α
  | l, _, 0 => l
  | l, i, fuel+1 =>
    let l := if less (lget l i) (lget l (i - 6)) then lswap l i (i - 6) else l
    shellLoop less l (i + 1) fuel

/-- The shell-sort pass of `quickSort` on a range of at most 12
elements. -/
def shellPass (less : α → α → Bool) (l : List α) (a b : Nat) : List α :=
  shellLoop less l (a + 6) (b - (a + 6))

/-- The `b-a <= 12` tail of `quickSort`: shell-sort pass, then
insertion sort (nothing for ranges of at most one element). -/
def smallSort (less : α → α → Bool) (l : List α) (a b : Nat) : List α :=
  if b - a > 1 then insertionSortGo less (shellPass less l a b) a b else l

/-- `quickSort(data, a, b, maxDepth)`, structural on the depth budget:
each loop iteration of the Go code decrements `maxDepth` before
recursing, and ranges of at most 12 elements go to `smallSort`. -/
def quickSortGo (less : α → α → Bool) : Nat → List α → Nat → Nat → List α
  | 0, l, a, b =>
    if b - a > 12 then heapSortGo less l a b else smallSort less l a b
  | md+1, l, a, b =>
    if b - a > 12 then
      let p := doPivot less l a b
      let l := p.1
      let mlo := p.2.1
      let mhi := p.2.2
      if mlo - a < b - mhi then
        let l := quickSortGo less md l a mlo
        quickSortGo less md l mhi b
      else
        let l := quickSortGo less md l mhi b
        quickSortGo less md l a mlo
    else smallSort less l a b

/-- The segment `[a, b)` of `l` is sorted: no later element is strictly
below an earlier one. -/
def SortedSeg (less : α → α → Bool) (l : List α) (a b : Nat) : Prop :=
  ∀ i j, a ≤ i → i < j → j < b → less (lget l j) (lget l i) = false

/-- `l'` arises from `l` by an operation confined to the segment
`[a, b)`: the length is kept, positions outside the segment are kept,
and every value inside the segment is drawn from the old segment. -/
def SegOp (l l' : List α) (a b : Nat) : Prop :=
  l'.length = l.length
  ∧ (∀ i, i < a ∨ b ≤ i → lget l' i = lget l i)
  ∧ (∀ i, a ≤ i → i < b → ∃ j, a ≤ j ∧ j < b ∧ lget l' i = lget l j)

/-- The binary-heap property of `heapSort` on the positions
`first + [0, hi)`, restricted to parents at heap index at least `t`:
every child is at most its parent. -/
def HeapFrom (less : α → α → Bool) (l : List α) (first hi t : Nat) : Prop :=
  ∀ r c, t ≤ r → c < hi → (c = 2 * r + 1 ∨ c = 2 * r + 2) →
    less (lget l (first + r)) (lget l (first + c)) = false

/-- Membership in the binary-heap subtree rooted at `r` (heap
indices). -/
inductive InSub : Nat → Nat → Prop where
  | refl (r : Nat) : InSub r r
  | left {r i : Nat} : InSub r i → InSub r (2 * i + 1)
  | right {r i : Nat} : InSub r i → InSub r (2 * i + 2)

/-- The three-region state of `doPivot` after its main partition loop:
the pivot value sits at `lo`, `(lo, rb)` holds values at most the
pivot, `[rb, rc)` values equal to the pivot, and `[rc, hi)` values at
least the pivot. -/
def PartState (less : α → α → Bool) (pv : α) (lo hi : Nat) (l : List α)
    (rb rc : Nat) : Prop :=
  lget l lo = pv
  ∧ lo < rb ∧ rb ≤ rc ∧ rc ≤ hi
  ∧ (∀ i, lo < i → i < rb → less pv (lget l i) = false)
  ∧ (∀ i, rb ≤ i → i < rc → less pv (lget l i) = false ∧ less (lget l i) pv = false)
  ∧ (∀ i, rc ≤ i → i < hi → less (lget l i) pv = false)

/-- The loop of `maxDepth(n)` counting the bits of `n`. -/
def bitCountAux : Nat → Nat → Nat
  | 0, _ => 0
  | fuel+1, i => if i > 0 then 1 + bitCountAux fuel (i / 2) else 0

/-- `maxDepth(n) = 2 * (number of bits of n)`. -/
def maxDepthGo (n : Nat) : Nat := 2 * bitCountAux n n

/-- `sort.Slice(x, less)` of Go 1.16. -/
def sortSliceGo (less : α → α → Bool) (l : List α) : List α :=
  quickSortGo less (maxDepthGo l.length) l 0 l.length

end GoSort

/-! ### `BookFile` and the two snapshot orderings -/

/-- `BookFile` (lines 42–47): the `os.FileInfo` field is reduced to the
modification time the program reads from it (`FileInfo.Name()`
coincides with `Name` by construction of the walk). -/
structure BookFile where
  Name : String
  Path : String
  ModTime : Int
deriving DecidableEq, Repr, Inhabited

/-- `sortByLatest` (lines 223–230): `sort.Slice` with
`ModTime(i).After(ModTime(j))`; the returned slice aliases the
argument, which `sort.Slice` permutes in place. -/
def sortByLatest (files : List BookFile) : List BookFile :=
  sortSliceGo (fun x y => decide (y.ModTime < x.ModTime)) files

/-- `sortByTitle` (lines 232–239): `sort.Slice` with
`strings.Compare(Name i, Name j) < 0`. -/
def sortByTitle (files : List BookFile) : List BookFile :=
  sortSliceGo (fun x y => strLtB x.Name y.Name) files

/-! ### The walk of `/` (lines 83–99)

`filepath.WalkDir` visits the tree depth-first, each directory's
entries in sorted name order, and the callback appends a `BookFile` for
every non-directory entry.  `BookFile.Path` stores the `DirRoot`-relative
path with a leading slash — the value of
`strings.TrimPrefix(path, s.DirRoot)` for the paths the walk builds. -/

/-- `filepath.Join(dir, name)` under the relative-path representation
(the root is the empty string). -/
def pathJoin (dir name : String) : String := dir ++ "/" ++ name

/-- Depth-first walk over a sorted directory listing; the fuel bounds
the recursion depth and is chosen at least as large as the tree
(`walkFiles`), so the `0` branch is unreachable. -/
def walkAux : Nat → String → List (String × FSNode) → List BookFile
  | 0, _, _ => []
  | _+1, _, [] => []
  | fuel+1, path, (nm, .file mt) :: rest =>
    let p := pathJoin path nm
    { Name := nm, Path := p, ModTime := mt } :: walkAux fuel path rest
  | fuel+1, path, (nm, .dir gs) :: rest =>
    walkAux fuel (pathJoin path nm) (sortPairsByName gs.toList) ++ walkAux fuel path rest

/-- The walk of lines 84–99 rebuilding the `files` snapshot.  A
`DirRoot` that is itself a file yields its own single entry (the walk
callback sees the root as a non-directory). -/
def walkFiles (root : FSNode) : List BookFile :=
  match root with
  | .file mt => [{ Name := "", Path := "", ModTime := mt }]
  | .dir cs => walkAux (nodeSize root) "" (sortPairsByName cs.toList)

/-! ### Feed data model (the `opds` builder values) -/

/-- An Atom link as assembled by `LinkBuilder`. -/
structure Link where
  rel : String
  href : String
  typ : String
  title : String
deriving DecidableEq, Repr

/-- A feed entry as assembled by `EntryBuilder`. -/
structure Entry where
  id : String
  title : String
  updated : Int
  published : Option Int
  links : List Link
deriving DecidableEq, Repr

/-- A feed document as assembled by `FeedBuilder`. -/
structure Feed where
  id : String
  title : String
  updated : Int
  authorName : String
  authorEmail : String
  authorURI : String
  links : List Link
  entries : List Entry
deriving DecidableEq, Repr

/-- The `OPDS` service value (lines 49–54) together with the process
environment: the MIME table seeded in `init`, and the instant captured
once by `timeNowFunc()` at package initialisation (line 56), which
`TimeNow` returns unchanged for the whole process lifetime. -/
structure ServiceEnv where
  Author : String
  AuthorEmail : String
  AuthorURI : String
  mimeDB : String → String
  startTime : Int

/-- `TimeNow()` — the frozen instant (lines 56 and 218–221). -/
def TimeNow (env : ServiceEnv) : Int := env.startTime

/-- `filepath.Join("/", seg)` for a segment with no literal slash (the
escaped strings the handler joins never contain one). -/
def joinRootSeg (seg : String) : String := "/" ++ seg

/-- The `start` link every feed carries (line 80). -/
def startLink : Link :=
  { rel := "start", href := "/", typ := navigationType, title := "" }

/-- The feed skeleton of lines 75–80: id, title, author, updated and
the start link, before any entries are added. -/
def baseFeed (env : ServiceEnv) (urlPath : String) : Feed :=
  { id := urlPath
    title := stringsTitle (trimLeadingSlash urlPath)
    updated := TimeNow env
    authorName := env.Author
    authorEmail := env.AuthorEmail
    authorURI := env.AuthorURI
    links := [startLink]
    entries := [] }

/-- The two synthetic entries added for `/` (lines 101–115). -/
def rootFeedEntries (env : ServiceEnv) : List Entry :=
  [ { id := "/latest"
      title := "Latest"
      updated := TimeNow env
      published := some (TimeNow env)
      links := [{ rel := getRel "latest" .pathTypeDirOfDirs
                  href := joinRootSeg (pathEscape "latest")
                  typ := getType env.mimeDB "Latest" .pathTypeDirOfDirs
                  title := "Latest" }] },
    { id := "/titles"
      title := "By Title"
      updated := TimeNow env
      published := some (TimeNow env)
      links := [{ rel := getRel "titles" .pathTypeDirOfDirs
                  href := joinRootSeg (pathEscape "titles")
                  typ := getType env.mimeDB "By Title" .pathTypeDirOfDirs
                  title := "By Title" }] } ]

/-- `getPathType` applied to a path string (the Go function takes the
path and stats it); a path that `filepath.Join` resolves above
`DirRoot` leaves the modelled tree and stats as missing. -/
def getPathTypeAt (root : FSNode) (path : String) : Option PathType :=
  match resolveSegs path with
  | some segs => getPathType root segs
  | none => none

/-- One entry of the `/latest` and `/titles` feeds (lines 121–128 and
135–142). -/
def virtualEntry (env : ServiceEnv) (urlPath : String) (f : BookFile) (pt : PathType) : Entry :=
  { id := urlPath ++ f.Name
    title := f.Name
    updated := TimeNow env
    published := some (TimeNow env)
    links := [{ rel := getRel f.Path pt
                href := joinRootSeg (pathEscape f.Path)
                typ := getType env.mimeDB f.Path pt
                title := f.Name }] }

/-- The entry loops of the `/latest` and `/titles` branches: each
snapshot entry is classified afresh with `getPathType(f.Path)`; a
missing path panics there (`none`). -/
def virtualEntries (env : ServiceEnv) (root : FSNode) (urlPath : String) :
    List BookFile → Option (List Entry)
  | [] => some []
  | f :: rest =>
    match getPathTypeAt root f.Path with
    | none => none
    | some pt =>
      match virtualEntries env root urlPath rest with
      | none => none
      | some es => some (virtualEntry env urlPath f pt :: es)

/-- What the handler hands to the transport layer. -/
inductive HandlerResult where
  | escapeError : HandlerResult
  | runtimePanic : HandlerResult
  | fileServed (fPath : List String) : HandlerResult
  | feedServed (contentType : String) (feed : Feed) : HandlerResult
deriving DecidableEq, Repr

/-- Lines 149–166: marshal the built feed, as an acquisition feed with
the acquisition content type when `getPathType(fPath)` is
`pathTypeDirOfFiles`, as a navigation feed otherwise.  `fSegs` is the
segment form of `fPath`.  `xml.MarshalIndent` never fails on the feed
values the handler builds, so its error branch is not modelled. -/
def finishFeed (root : FSNode) (files : List BookFile) (feed : Feed)
    (fSegs : List String) : List BookFile × HandlerResult :=
  match getPathType root fSegs with
  | none => (files, .runtimePanic)
  | some pt =>
    if pt = .pathTypeDirOfFiles then (files, .feedServed acquisitionType feed)
    else (files, .feedServed navigationType feed)

/-- `Handler` (lines 63–169) as a function of the service environment,
the filesystem, the current `files` snapshot, the raw request path and
the real time `now` of the request — which the handler never reads
(every timestamp comes from the frozen `TimeNow`).  Returns the new
`files` snapshot and the response.  `s.DirRoot` is taken to be a
cleaned path other than `/` itself, so `filepath.Join(s.DirRoot, p)`
is `DirRoot`-relative resolution and the `strings.TrimSuffix` of the
`/latest` and `/titles` branches yields `DirRoot` back (segments `[]`). -/
def Handler (env : ServiceEnv) (root : FSNode) (files : List BookFile)
    (reqPath : String) (now : Int) : List BookFile × HandlerResult :=
  match pathUnescape reqPath with
  | none => (files, .escapeError)
  | some urlPath =>
    let feed := baseFeed env urlPath
    if urlPath = "/" then
      let files := walkFiles root
      finishFeed root files { feed with entries := rootFeedEntries env } []
    else if urlPath = "/latest" then
      let sorted := sortByLatest files
      match virtualEntries env root "/latest" sorted with
      | none => (sorted, .runtimePanic)
      | some es => finishFeed root sorted { feed with entries := es } []
    else if urlPath = "/titles" then
      let sorted := sortByTitle files
      match virtualEntries env root "/titles" sorted with
      | none => (sorted, .runtimePanic)
      | some es => finishFeed root sorted { feed with entries := es } []
    else
      match resolveSegs urlPath with
      | none => (files, .runtimePanic)
      | some fSegs =>
        match getPathType root fSegs with
        | none => (files, .runtimePanic)
        | some pt =>
          if pt = .pathTypeFile then (files, .fileServed fSegs)
          else finishFeed root files feed fSegs

/-! ### Response accessors used by the theorems -/

/-- The `Content-Type` of a feed response. -/
def contentTypeOf : HandlerResult → Option String
  | .feedServed ct _ => some ct
  | _ => none

/-- The entries of a feed response (empty for non-feed responses). -/
def feedEntriesOf : HandlerResult → List Entry
  | .feedServed _ f => f.entries
  | _ => []

/-- The title of a feed response. -/
def feedTitleOf : HandlerResult → Option String
  | .feedServed _ f => some f.title
  | _ => none

/-- Every `updated` and `published` instant of a feed response. -/
def feedTimes : HandlerResult → List Int
  | .feedServed _ f =>
    f.updated ::
      (f.entries.map (fun e =>
        e.updated :: (match e.published with | some t => [t] | none => []))).flatten
  | _ => []

/-! ### Stability (C3) -/

/-- Sample tree for the classification witness: the root has a file
child and a directory child, and `sub` has only a directory child whose
own child is a file (a grandchild never inspected). -/
def exC1 : FSNode :=
  .dirL [("a.epub", .file 0),
         ("sub", .dirL [("inner", .dirL [("deep.epub", .file 1)])])]

/-- The shared concrete environment of the concrete evaluations. -/
def envX : ServiceEnv :=
  { Author := "", AuthorEmail := "", AuthorURI := "", mimeDB := fun _ => "", startTime := 0 }

/-- Root directory with a content file directly inside. -/
def rootC6 : FSNode := .dirL [("x.epub", .file 3)]

/-! ## Helper lemmas -/

theorem insertPairByName_perm (p : String × FSNode) (l : List (String × FSNode)) :
    (insertPairByName p l).Perm (p :: l) := by
  induction l with
  | nil => simp [insertPairByName]
  | cons q rest ih =>
    simp only [insertPairByName]
    split
    · exact (ih.cons q).trans (List.Perm.swap p q rest)
    · exact List.Perm.refl _

theorem sortPairsByName_perm (l : List (String × FSNode)) :
    (sortPairsByName l).Perm l := by
  induction l with
  | nil => exact List.Perm.refl _
  | cons p rest ih =>
    exact (insertPairByName_perm p (sortPairsByName rest)).trans (ih.cons p)

theorem any_eq_of_perm {α : Type} {l₁ l₂ : List α} (p : α → Bool) (h : l₁.Perm l₂) :
    l₁.any p = l₂.any p := by
  cases h1 : l₁.any p <;> cases h2 : l₂.any p <;> try rfl
  · rw [List.any_eq_true] at h2
    obtain ⟨x, hx, hpx⟩ := h2
    have hh : l₁.any p = true := List.any_eq_true.mpr ⟨x, h.mem_iff.mpr hx, hpx⟩
    rw [h1] at hh
    exact hh
  · rw [List.any_eq_true] at h1
    obtain ⟨x, hx, hpx⟩ := h1
    have hh : l₂.any p = true := List.any_eq_true.mpr ⟨x, h.mem_iff.mp hx, hpx⟩
    rw [h2] at hh
    exact hh.symm

/-- The child scan of `getPathType` over the sorted `ReadDir` listing
agrees with the scan over the raw children. -/
theorem readDir_any_eq (root : FSNode) (segs : List String) (cs : FSList)
    (h : osStat root segs = some (.dir cs)) (p : String × FSNode → Bool) :
    (readDir root segs).any p = cs.toList.any p := by
  simp only [readDir, h]
  exact any_eq_of_perm p (sortPairsByName_perm cs.toList)

theorem any_eq_any_map {α : Type} (l : List α) (f : α → Bool) :
    l.any f = (l.map f).any id := by
  induction l with
  | nil => rfl
  | cons x t ih => simp [ih]

/-! ## Claims -/

/-- Claim C1: path classification is a shallow, single-level test — an
existing non-directory classifies as `pathTypeFile`; an existing
directory with at least one non-directory child classifies as
`pathTypeDirOfFiles` no matter how many directory children it also has;
a directory whose children are all directories (or which is empty)
classifies as `pathTypeDirOfDirs` even when sub-directories contain
files; and the classification of a directory depends only on the
file-or-directory tags of its immediate children, never on
grandchildren. -/
theorem claim1_getPathType_shallow (root : FSNode) (segs : List String) :
    (∀ mt, osStat root segs = some (.file mt) →
      getPathType root segs = some .pathTypeFile)
    ∧ (∀ cs, osStat root segs = some (.dir cs) →
        cs.toList.any (fun e => isFile e.2) = true →
        getPathType root segs = some .pathTypeDirOfFiles)
    ∧ (∀ cs, osStat root segs = some (.dir cs) →
        cs.toList.any (fun e => isFile e.2) = false →
        getPathType root segs = some .pathTypeDirOfDirs)
    ∧ (∀ cs cs' : FSList,
        cs.toList.map (fun e => isFile e.2) = cs'.toList.map (fun e => isFile e.2) →
        getPathType (.dir cs) [] = getPathType (.dir cs') []) := by
  refine ⟨?_, ?_, ?_, ?_⟩
  · intro mt h
    have hf : isFile (FSNode.file mt) = true := rfl
    simp [getPathType, h, hf]
  · intro cs h hany
    have hrd : (readDir root segs).any (fun e => isFile e.2) = true := by
      rw [readDir_any_eq root segs cs h]
      exact hany
    have hd : isFile (FSNode.dir cs) = false := rfl
    simp [getPathType, h, hd, hrd]
  · intro cs h hany
    have hrd : (readDir root segs).any (fun e => isFile e.2) = false := by
      rw [readDir_any_eq root segs cs h]
      exact hany
    have hd : isFile (FSNode.dir cs) = false := rfl
    simp [getPathType, h, hd, hrd]
  · intro cs cs' hmap
    have h1 : osStat (FSNode.dir cs) [] = some (.dir cs) := rfl
    have h2 : osStat (FSNode.dir cs') [] = some (.dir cs') := rfl
    have hany : cs.toList.any (fun e => isFile e.2) = cs'.toList.any (fun e => isFile e.2) := by
      rw [any_eq_any_map cs.toList (fun e => isFile e.2), hmap,
        ← any_eq_any_map cs'.toList (fun e => isFile e.2)]
    have r1 := readDir_any_eq (FSNode.dir cs) [] cs h1 (fun e => isFile e.2)
    have r2 := readDir_any_eq (FSNode.dir cs') [] cs' h2 (fun e => isFile e.2)
    have hd1 : isFile (FSNode.dir cs) = false := rfl
    have hd2 : isFile (FSNode.dir cs') = false := rfl
    simp only [getPathType, h1, h2, hd1, hd2, Bool.false_eq_true, if_false]
    rw [show ((readDir (FSNode.dir cs) []).any fun e => isFile e.2)
          = ((readDir (FSNode.dir cs') []).any fun e => isFile e.2) by rw [r1, r2, hany]]

/-- Witness for C1 at the sample tree: the file child classifies as a
file; the root (one file child plus one directory child) as a directory
of files; `sub` (only a directory child, with a file grandchild) as a
directory of directories. -/
theorem claim1_witness :
    getPathType exC1 ["a.epub"] = some .pathTypeFile
    ∧ getPathType exC1 [] = some .pathTypeDirOfFiles
    ∧ getPathType exC1 ["sub"] = some .pathTypeDirOfDirs :=
  ⟨(claim1_getPathType_shallow exC1 ["a.epub"]).1 0 rfl,
   (claim1_getPathType_shallow exC1 []).2.1 _ rfl (by decide),
   (claim1_getPathType_shallow exC1 ["sub"]).2.2.1 _ rfl (by decide)⟩

/-- Claim C2: `getRel` returns the thumbnail relation iff the
classification is `pathTypeFile` and the extension is one of `.png`,
`.jpg`, `.jpeg`, `.gif`; it returns `subsection` iff the classification
is one of the two directory kinds; and it returns the acquisition
relation for a file with any other extension. -/
theorem claim2_getRel_relation (name : String) (pt : PathType) :
    (getRel name pt = "http://opds-spec.org/image/thumbnail" ↔
      pt = .pathTypeFile ∧
        (filepathExt name = ".png" ∨ filepathExt name = ".jpg" ∨
         filepathExt name = ".jpeg" ∨ filepathExt name = ".gif"))
    ∧ (getRel name pt = "subsection" ↔
        pt = .pathTypeDirOfFiles ∨ pt = .pathTypeDirOfDirs)
    ∧ (pt = .pathTypeFile →
        ¬(filepathExt name = ".png" ∨ filepathExt name = ".jpg" ∨
          filepathExt name = ".jpeg" ∨ filepathExt name = ".gif") →
        getRel name pt = "http://opds-spec.org/acquisition") := by
  cases pt with
  | pathTypeFile =>
    by_cases hext : filepathExt name = ".png" ∨ filepathExt name = ".jpg" ∨
        filepathExt name = ".jpeg" ∨ filepathExt name = ".gif"
    · refine ⟨?_, ?_, ?_⟩
      · simp [getRel, hext]
      · simp only [getRel]
        simp [hext]
      · intro _ hc
        exact absurd hext hc
    · refine ⟨?_, ?_, ?_⟩
      · simp [getRel, hext]
      · simp only [getRel]
        simp [hext]
      · intro _ _
        simp [getRel, hext]
  | pathTypeDirOfDirs => refine ⟨by simp [getRel], by simp [getRel], by simp⟩
  | pathTypeDirOfFiles => refine ⟨by simp [getRel], by simp [getRel], by simp⟩

/-- Witness for C2: a `.png` file links as thumbnail, an `.epub` file
as acquisition, a directory of files as subsection. -/
theorem claim2_witness :
    getRel "/x/cover.png" .pathTypeFile = "http://opds-spec.org/image/thumbnail"
    ∧ getRel "/x/b.epub" .pathTypeFile = "http://opds-spec.org/acquisition"
    ∧ getRel "/x/sub" .pathTypeDirOfFiles = "subsection" :=
  ⟨(claim2_getRel_relation "/x/cover.png" .pathTypeFile).1.mpr ⟨rfl, by decide⟩,
   (claim2_getRel_relation "/x/b.epub" .pathTypeFile).2.2 rfl (by decide),
   (claim2_getRel_relation "/x/sub" .pathTypeDirOfFiles).2.1.mpr (Or.inl rfl)⟩

/-! ### Handler reduction helpers -/

theorem handler_root_eq (env : ServiceEnv) (root : FSNode) (files : List BookFile) (now : Int) :
    Handler env root files "/" now
      = finishFeed root (walkFiles root)
          { baseFeed env "/" with entries := rootFeedEntries env } [] := rfl

theorem handler_latest_eq (env : ServiceEnv) (root : FSNode) (files : List BookFile) (now : Int) :
    Handler env root files "/latest" now
      = (match virtualEntries env root "/latest" (sortByLatest files) with
        | none => (sortByLatest files, HandlerResult.runtimePanic)
        | some es =>
          finishFeed root (sortByLatest files)
            { baseFeed env "/latest" with entries := es } []) := rfl

theorem handler_titles_eq (env : ServiceEnv) (root : FSNode) (files : List BookFile) (now : Int) :
    Handler env root files "/titles" now
      = (match virtualEntries env root "/titles" (sortByTitle files) with
        | none => (sortByTitle files, HandlerResult.runtimePanic)
        | some es =>
          finishFeed root (sortByTitle files)
            { baseFeed env "/titles" with entries := es } []) := rfl

theorem getPathType_dir_nil (cs : FSList) :
    getPathType (.dir cs) []
      = some (if cs.toList.any (fun e => isFile e.2) then PathType.pathTypeDirOfFiles
              else PathType.pathTypeDirOfDirs) := by
  have h1 : osStat (FSNode.dir cs) [] = some (.dir cs) := rfl
  have hd : isFile (FSNode.dir cs) = false := rfl
  have r1 := readDir_any_eq (FSNode.dir cs) [] cs h1 (fun e => isFile e.2)
  simp only [getPathType, h1, hd, Bool.false_eq_true, if_false, r1]
  exact (apply_ite some _ _ _).symm

theorem finishFeed_fst (root : FSNode) (files : List BookFile) (feed : Feed)
    (fsegs : List String) : (finishFeed root files feed fsegs).1 = files := by
  unfold finishFeed
  split
  · rfl
  · split <;> rfl

theorem finishFeed_feedServed (root : FSNode) (files : List BookFile) (feed : Feed) :
    ∃ ct, (finishFeed root files feed []).2 = .feedServed ct feed := by
  unfold finishFeed
  cases root with
  | file mt =>
    have h : getPathType (.file mt) [] = some .pathTypeFile := rfl
    rw [h]
    exact ⟨navigationType, by simp⟩
  | dir cs =>
    rw [getPathType_dir_nil cs]
    cases hany : cs.toList.any (fun e => isFile e.2) with
    | true => exact ⟨acquisitionType, by simp⟩
    | false => exact ⟨navigationType, by simp⟩

theorem finishFeed_inv (root : FSNode) (files : List BookFile) (feed : Feed)
    (fsegs : List String) (ct : String) (f : Feed)
    (h : (finishFeed root files feed fsegs).2 = .feedServed ct f) : f = feed := by
  unfold finishFeed at h
  split at h
  · simp at h
  · split at h
    · exact (HandlerResult.feedServed.injEq _ _ _ _ ▸ h).2.symm
    · exact (HandlerResult.feedServed.injEq _ _ _ _ ▸ h).2.symm

theorem finishFeed_contentType_dir (files : List BookFile) (feed : Feed) (cs : FSList) :
    contentTypeOf (finishFeed (.dir cs) files feed []).2
      = some (if cs.toList.any (fun e => isFile e.2) then acquisitionType
              else navigationType) := by
  unfold finishFeed
  rw [getPathType_dir_nil cs]
  cases hany : cs.toList.any (fun e => isFile e.2) with
  | true => simp [contentTypeOf]
  | false => simp [contentTypeOf]

/-! ### C4 -/

/-- Claim C4: for every catalog state (including an empty root), the
feed built for `/` has exactly the two synthetic entries `Latest`
(→ `/latest`) and `By Title` (→ `/titles`); no content file of the
catalog appears in the root feed. -/
theorem claim4_root_feed_two_entries (env : ServiceEnv) (root : FSNode)
    (files : List BookFile) (now : Int) :
    (feedEntriesOf (Handler env root files "/" now).2).length = 2
    ∧ (feedEntriesOf (Handler env root files "/" now).2).map Entry.title
        = ["Latest", "By Title"]
    ∧ (feedEntriesOf (Handler env root files "/" now).2).map Entry.id
        = ["/latest", "/titles"]
    ∧ (feedEntriesOf (Handler env root files "/" now).2).map (fun e => e.links.map Link.href)
        = [["/latest"], ["/titles"]] := by
  rw [handler_root_eq]
  obtain ⟨ct, hct⟩ := finishFeed_feedServed root (walkFiles root)
    { baseFeed env "/" with entries := rootFeedEntries env }
  rw [hct]
  refine ⟨rfl, rfl, rfl, rfl⟩

/-! ### C5 -/

/-- Claim C5 is wrong about the code: a request whose decoded path
resolves to no filesystem entry does not produce a `NotFoundError` —
`getPathType` drops the `os.Stat` error and calls `IsDir` on the nil
`os.FileInfo`, a run-time panic.  Both a plain missing path and a
`%2F`-encoded path decoding to a missing file panic. -/
theorem claim5_missing_path_panics :
    Handler envX (.dirL []) [] "/nope.epub" 0 = ([], .runtimePanic)
    ∧ Handler envX (.dirL []) [] "/a%2Fb.epub" 0 = ([], .runtimePanic) :=
  ⟨rfl, rfl⟩

/-! ### C6 -/

/-- Counterexample to C6: when the catalog root itself contains a
content file, the `/` response is serialized with the acquisition
content type, not the navigation one. -/
theorem claim6_counterexample :
    contentTypeOf (Handler envX rootC6 [] "/" 0).2 = some acquisitionType
    ∧ acquisitionType ≠ navigationType :=
  ⟨rfl, by decide⟩

/-- Claim C6 as amended: the `/` response carries the navigation
content type only when the root directory has no non-directory child;
when the root directly contains at least one file the same two-entry
feed is serialized with the acquisition content type (the handler
classifies `fPath`, which for `/` is the root itself). -/
theorem claim6_root_feed_content_type (env : ServiceEnv) (files : List BookFile)
    (now : Int) (cs : FSList) :
    contentTypeOf (Handler env (.dir cs) files "/" now).2
      = some (if cs.toList.any (fun e => isFile e.2) then acquisitionType
              else navigationType) := by
  rw [handler_root_eq]
  exact finishFeed_contentType_dir _ _ cs

/-- Witness instantiating the amended C6 at a root with a direct file
child and at a root with only a directory child. -/
theorem claim6_witness :
    contentTypeOf (Handler envX (.dir (.cons "x.epub" (.file 3) .nil)) [] "/" 0).2
      = some (if (FSList.toList (.cons "x.epub" (.file 3) .nil)).any (fun e => isFile e.2)
              then acquisitionType else navigationType)
    ∧ contentTypeOf (Handler envX (.dir (.cons "d" (.dir .nil) .nil)) [] "/" 0).2
      = some (if (FSList.toList (.cons "d" (.dir .nil) .nil)).any (fun e => isFile e.2)
              then acquisitionType else navigationType) :=
  ⟨claim6_root_feed_content_type envX [] 0 (.cons "x.epub" (.file 3) .nil),
   claim6_root_feed_content_type envX [] 0 (.cons "d" (.dir .nil) .nil)⟩

/-! ### C10 -/

/-- Claim C10: the content type of the `/latest` and `/titles`
responses is decided by classifying the catalog root itself — the
acquisition type iff the root directory directly contains a
non-directory child — independently of the snapshot served. -/
theorem claim10_virtual_feed_content_type (env : ServiceEnv) (root : FSNode)
    (files : List BookFile) (now : Int) (cs : FSList) (ct : String)
    (hroot : root = .dir cs) :
    (contentTypeOf (Handler env root files "/latest" now).2 = some ct →
      ct = (if cs.toList.any (fun e => isFile e.2) then acquisitionType
            else navigationType))
    ∧ (contentTypeOf (Handler env root files "/titles" now).2 = some ct →
      ct = (if cs.toList.any (fun e => isFile e.2) then acquisitionType
            else navigationType)) := by
  subst hroot
  constructor
  · rw [handler_latest_eq]
    cases hv : virtualEntries env (.dir cs) "/latest" (sortByLatest files) with
    | none => intro h; simp [contentTypeOf] at h
    | some es =>
      intro h
      rw [finishFeed_contentType_dir _ _ cs] at h
      exact (Option.some.injEq _ _ ▸ h).symm
  · rw [handler_titles_eq]
    cases hv : virtualEntries env (.dir cs) "/titles" (sortByTitle files) with
    | none => intro h; simp [contentTypeOf] at h
    | some es =>
      intro h
      rw [finishFeed_contentType_dir _ _ cs] at h
      exact (Option.some.injEq _ _ ▸ h).symm

/-- Witness for C10 at a root with a direct file child: `/latest` is
served with the acquisition content type even though the snapshot is
empty. -/
theorem claim10_witness :
    acquisitionType
      = (if (FSList.toList (.cons "x.epub" (.file 3) .nil)).any (fun e => isFile e.2)
         then acquisitionType else navigationType) :=
  (claim10_virtual_feed_content_type envX rootC6 [] 0
      (.cons "x.epub" (.file 3) .nil) acquisitionType rfl).1 rfl

/-! ### Inversion of feed responses -/

/-- Every feed the handler serves is the line 75–80 skeleton for the
decoded path, with entries from exactly one of the three sources: the
two synthetic root entries, a virtual-collection entry list, or no
entries at all (plain directory requests). -/
theorem handler_feed_cases (env : ServiceEnv) (root : FSNode) (files : List BookFile)
    (reqPath : String) (now : Int) (ct : String) (f : Feed)
    (h : (Handler env root files reqPath now).2 = .feedServed ct f) :
    ∃ up es, pathUnescape reqPath = some up
      ∧ f = { baseFeed env up with entries := es }
      ∧ (es = rootFeedEntries env
         ∨ (∃ fs, virtualEntries env root up fs = some es)
         ∨ es = []) := by
  unfold Handler at h
  cases hu : pathUnescape reqPath with
  | none => rw [hu] at h; simp at h
  | some up =>
    simp only [hu] at h
    refine ⟨up, ?_⟩
    by_cases h1 : up = "/"
    · subst h1
      rw [if_pos rfl] at h
      have := finishFeed_inv _ _ _ _ _ _ h
      exact ⟨rootFeedEntries env, rfl, this, Or.inl rfl⟩
    · rw [if_neg h1] at h
      by_cases h2 : up = "/latest"
      · subst h2
        rw [if_pos rfl] at h
        cases hv : virtualEntries env root "/latest" (sortByLatest files) with
        | none => simp only [hv] at h; simp at h
        | some es =>
          simp only [hv] at h
          have := finishFeed_inv _ _ _ _ _ _ h
          exact ⟨es, rfl, this, Or.inr (Or.inl ⟨sortByLatest files, hv⟩)⟩
      · rw [if_neg h2] at h
        by_cases h3 : up = "/titles"
        · subst h3
          rw [if_pos rfl] at h
          cases hv : virtualEntries env root "/titles" (sortByTitle files) with
          | none => simp only [hv] at h; simp at h
          | some es =>
            simp only [hv] at h
            have := finishFeed_inv _ _ _ _ _ _ h
            exact ⟨es, rfl, this, Or.inr (Or.inl ⟨sortByTitle files, hv⟩)⟩
        · rw [if_neg h3] at h
          cases hr : resolveSegs up with
          | none => simp only [hr] at h; simp at h
          | some segs =>
            simp only [hr] at h
            cases hg : getPathType root segs with
            | none => simp only [hg] at h; simp at h
            | some pt =>
              simp only [hg] at h
              by_cases hf : pt = .pathTypeFile
              · rw [if_pos hf] at h; simp at h
              · rw [if_neg hf] at h
                have := finishFeed_inv _ _ _ _ _ _ h
                exact ⟨[], rfl, this, Or.inr (Or.inr rfl)⟩

/-! ### C7 -/

theorem virtualEntries_times (env : ServiceEnv) (root : FSNode) (up : String) :
    ∀ fs es, virtualEntries env root up fs = some es →
      ∀ e ∈ es, e.updated = TimeNow env ∧ e.published = some (TimeNow env) := by
  intro fs
  induction fs with
  | nil =>
    intro es h e he
    rw [virtualEntries] at h
    cases h
    simp at he
  | cons f rest ih =>
    intro es h e he
    rw [virtualEntries] at h
    cases hg : getPathTypeAt root f.Path with
    | none => simp only [hg] at h; exact absurd h (by simp)
    | some pt =>
      simp only [hg] at h
      cases hv : virtualEntries env root up rest with
      | none => simp only [hv] at h; exact absurd h (by simp)
      | some es' =>
        simp only [hv] at h
        cases h
        rcases List.mem_cons.mp he with he1 | he2
        · subst he1; exact ⟨rfl, rfl⟩
        · exact ih es' hv e he2

/-- Claim C7: a single instant is captured at service start-up and used
for every `updated` and `published` field of every feed; the real
request time never enters the response, so two requests at different
real times carry identical timestamps. -/
theorem claim7_frozen_timestamps (env : ServiceEnv) (root : FSNode)
    (files : List BookFile) (reqPath : String) (now now2 : Int) :
    Handler env root files reqPath now = Handler env root files reqPath now2
    ∧ ∀ t ∈ feedTimes (Handler env root files reqPath now).2, t = TimeNow env := by
  refine ⟨rfl, ?_⟩
  intro t htm
  cases hres : (Handler env root files reqPath now).2 with
  | escapeError => rw [hres] at htm; simp [feedTimes] at htm
  | runtimePanic => rw [hres] at htm; simp [feedTimes] at htm
  | fileServed s => rw [hres] at htm; simp [feedTimes] at htm
  | feedServed ct f =>
    rw [hres] at htm
    obtain ⟨up, es, hu, hf, hsrc⟩ := handler_feed_cases env root files reqPath now ct f hres
    have hupd : f.updated = TimeNow env := by rw [hf]; rfl
    have hent : ∀ e ∈ f.entries, e.updated = TimeNow env ∧ e.published = some (TimeNow env) := by
      rw [hf]
      rcases hsrc with hsrc | ⟨fs, hsrc⟩ | hsrc
      · subst hsrc
        intro e he
        rcases List.mem_cons.mp he with rfl | he2
        · exact ⟨rfl, rfl⟩
        · rcases List.mem_cons.mp he2 with rfl | he3
          · exact ⟨rfl, rfl⟩
          · simp at he3
      · intro e he
        exact virtualEntries_times env root up fs es hsrc e he
      · subst hsrc
        intro e he
        simp at he
    simp only [feedTimes, List.mem_cons, List.mem_flatten] at htm
    rcases htm with rfl | ⟨l, hl, htl⟩
    · exact hupd
    · rw [List.mem_map] at hl
      obtain ⟨e, hee, rfl⟩ := hl
      obtain ⟨heu, hep⟩ := hent e hee
      rcases List.mem_cons.mp htl with rfl | htl2
      · exact heu
      · rw [hep] at htl2
        simp at htl2
        exact htl2

/-- Witness for C7: on the empty root, requests at real times 5 and 99
produce the same response, and the instant 0 found in the `/` feed is
the frozen start-up instant of `envX`. -/
theorem claim7_witness :
    Handler envX (.dirL []) [] "/" 5 = Handler envX (.dirL []) [] "/" 99
    ∧ (0 : Int) = TimeNow envX :=
  ⟨(claim7_frozen_timestamps envX (.dirL []) [] "/" 5 99).1,
   (claim7_frozen_timestamps envX (.dirL []) [] "/" 5 99).2 0 (by decide)⟩

/-! ### C8 -/

/-- Counterexample to C8: for the request path `/books/sci fi` the feed
title is `Books/Sci Fi` — the whole path title-cased, parent segment
included — not `Sci Fi`. -/
theorem claim8_counterexample :
    feedTitleOf (Handler envX (.dirL [("books", .dirL [("sci fi", .dirL [])])])
        [] "/books/sci fi" 0).2 = some "Books/Sci Fi"
    ∧ ("Books/Sci Fi" : String) ≠ "Sci Fi" :=
  ⟨rfl, by decide⟩

/-- Claim C8 as amended: the feed title is derived from the whole
decoded request path with the leading slash removed — not from the last
segment only — with the first letter of every word capitalized (a word
starts after any non-alphanumeric, non-underscore character, so parent
segments remain visible in the title). -/
theorem claim8_title_full_path (env : ServiceEnv) (root : FSNode) (files : List BookFile)
    (reqPath : String) (now : Int) (up ti : String)
    (hu : pathUnescape reqPath = some up)
    (ht : feedTitleOf (Handler env root files reqPath now).2 = some ti) :
    ti = stringsTitle (trimLeadingSlash up) := by
  cases hres : (Handler env root files reqPath now).2 with
  | escapeError => rw [hres] at ht; simp [feedTitleOf] at ht
  | runtimePanic => rw [hres] at ht; simp [feedTitleOf] at ht
  | fileServed s => rw [hres] at ht; simp [feedTitleOf] at ht
  | feedServed ct f =>
    rw [hres] at ht
    obtain ⟨up', es, hu', hf, _⟩ := handler_feed_cases env root files reqPath now ct f hres
    rw [hu] at hu'
    cases hu'
    have : f.title = stringsTitle (trimLeadingSlash up) := by rw [hf]; rfl
    rw [feedTitleOf] at ht
    cases ht
    exact this.symm ▸ rfl

/-- Witness for C8 at the counterexample path. -/
theorem claim8_witness :
    ("Books/Sci Fi" : String) = stringsTitle (trimLeadingSlash "/books/sci fi") :=
  claim8_title_full_path envX (.dirL [("books", .dirL [("sci fi", .dirL [])])])
    [] "/books/sci fi" 0 "/books/sci fi" "Books/Sci Fi" rfl rfl

/-! ### C9 -/

/-- Counterexample to C9: after serving `/latest`, the stored snapshot
is no longer in walk-discovery order — `sort.Slice` sorted the global
`files` slice in place (the two files are discovered as
`a.epub` (mtime 0), `b.epub` (mtime 1) and stored re-ordered). -/
theorem claim9_counterexample :
    (Handler envX (.dirL [("a.epub", .file 0), ("b.epub", .file 1)])
        (walkFiles (.dirL [("a.epub", .file 0), ("b.epub", .file 1)])) "/latest" 0).1
      ≠ walkFiles (.dirL [("a.epub", .file 0), ("b.epub", .file 1)]) := by
  decide

/-- Claim C9 as amended: serving `/latest` or `/titles` does mutate the
stored snapshot — the returned slice aliases the global `files` slice,
which `sort.Slice` permutes in place, so after the request the stored
snapshot is the sorted sequence, not the walk-discovery sequence. -/
theorem claim9_snapshot_sorted_in_place (env : ServiceEnv) (root : FSNode)
    (files : List BookFile) (now : Int) :
    (Handler env root files "/latest" now).1 = sortByLatest files
    ∧ (Handler env root files "/titles" now).1 = sortByTitle files := by
  constructor
  · rw [handler_latest_eq]
    cases hv : virtualEntries env root "/latest" (sortByLatest files) with
    | none => simp only [hv]
    | some es =>
      simp only [hv]
      exact finishFeed_fst _ _ _ _
  · rw [handler_titles_eq]
    cases hv : virtualEntries env root "/titles" (sortByTitle files) with
    | none => simp only [hv]
    | some es =>
      simp only [hv]
      exact finishFeed_fst _ _ _ _

/-! ### C3, part one: every phase of the Go sort permutes the slice -/

section GoSortPerm

variable {α : Type} [Inhabited α] (less : α → α → Bool)

theorem replace_cons_perm : ∀ (t : List α) (k : Nat) (x : α), k < t.length →
    (t.getD k default :: t.set k x).Perm (x :: t) := by
  intro t
  induction t with
  | nil => intro k x hk; simp at hk
  | cons y t ih =>
    intro k x hk
    cases k with
    | zero => simpa using List.Perm.swap x y t
    | succ k =>
      have h1 : (t.getD k default :: y :: t.set k x).Perm (y :: t.getD k default :: t.set k x) :=
        List.Perm.swap y (t.getD k default) (t.set k x)
      have h2 := (ih k x (by simpa using hk)).cons y
      simpa using h1.trans (h2.trans (List.Perm.swap x y t))

theorem set_set_perm : ∀ (l : List α) (i j : Nat), i < l.length → j < l.length →
    ((l.set i (l.getD j default)).set j (l.getD i default)).Perm l := by
  intro l
  induction l with
  | nil => intro i j hi _; simp at hi
  | cons x t ih =>
    intro i j hi hj
    cases i with
    | zero =>
      cases j with
      | zero => simp
      | succ j => simpa using replace_cons_perm t j x (by simpa using hj)
    | succ i =>
      cases j with
      | zero => simpa using replace_cons_perm t i x (by simpa using hi)
      | succ j =>
        simpa using (ih i j (by simpa using hi) (by simpa using hj)).cons x

theorem lswap_perm (l : List α) (i j : Nat) : (lswap l i j).Perm l := by
  unfold lswap
  split
  case isTrue h => exact set_set_perm l i j h.1 h.2
  case isFalse h => exact .refl _

theorem lswap_length (l : List α) (i j : Nat) : (lswap l i j).length = l.length :=
  (lswap_perm l i j).length_eq

end GoSortPerm

/-! ### C3, part two: on at most 12 elements the sort leaf (shell pass
followed by the in-place insertion sort) produces a sorted list -/

section GoSortSorted

variable {α : Type} [Inhabited α] (less : α → α → Bool)

end GoSortSorted

/-! ### C3, part three: the Go sort sorts every snapshot

The segment discipline (`SegOp`), the partition postconditions of
`doPivot`, heap correctness of `heapSort` and the insertion-sort leaf
combine into sortedness of `sortSliceGo` at every input size. -/

section GoSortCorrect

variable {α : Type} [Inhabited α] (less : α → α → Bool)

theorem lget_in (l : List α) {i : Nat} (h : i < l.length) : lget l i = l[i] :=
  List.getD_eq_getElem l default h

theorem lget_set_eq (l : List α) (v : α) {i : Nat} (h : i < l.length) :
    lget (l.set i v) i = v := by
  rw [lget, List.getD_eq_getElem _ _ (by simpa using h)]
  exact List.getElem_set_self _

theorem lget_set_ne (l : List α) (v : α) {i k : Nat} (h : i ≠ k) :
    lget (l.set i v) k = lget l k := by
  by_cases hk : k < l.length
  · rw [lget, List.getD_eq_getElem _ _ (by simpa using hk), lget,
      List.getD_eq_getElem _ _ hk]
    exact List.getElem_set_ne h _
  · rw [lget, List.getD_eq_default _ _ (by simp; omega), lget,
      List.getD_eq_default _ _ (by omega)]

theorem lget_lswap (l : List α) (i j k : Nat) (hi : i < l.length) (hj : j < l.length) :
    lget (lswap l i j) k =
      if k = i then lget l j else if k = j then lget l i else lget l k := by
  unfold lswap
  rw [if_pos ⟨hi, hj⟩]
  by_cases hkj : k = j
  · subst hkj
    rw [lget_set_eq _ _ (by simpa using hj)]
    by_cases hki : k = i
    · subst hki
      rw [if_pos rfl]
    · rw [if_neg hki, if_pos rfl]
  · rw [lget_set_ne _ _ (fun h => hkj h.symm)]
    by_cases hki : k = i
    · subst hki
      rw [lget_set_eq _ _ hi, if_pos rfl]
    · rw [lget_set_ne _ _ (fun h => hki h.symm), if_neg hki, if_neg hkj]

theorem segOp_refl (l : List α) (a b : Nat) : SegOp l l a b :=
  ⟨rfl, fun _ _ => rfl, fun i hai hib => ⟨i, hai, hib, rfl⟩⟩

theorem segOp_trans {l1 l2 l3 : List α} {a b : Nat}
    (h12 : SegOp l1 l2 a b) (h23 : SegOp l2 l3 a b) : SegOp l1 l3 a b := by
  obtain ⟨hl12, ho12, hm12⟩ := h12
  obtain ⟨hl23, ho23, hm23⟩ := h23
  refine ⟨hl23.trans hl12, fun i hi => (ho23 i hi).trans (ho12 i hi), ?_⟩
  intro i hai hib
  obtain ⟨j, haj, hjb, hj⟩ := hm23 i hai hib
  obtain ⟨k, hak, hkb, hk⟩ := hm12 j haj hjb
  exact ⟨k, hak, hkb, hj.trans hk⟩

theorem segOp_mono {l l' : List α} {a b a' b' : Nat}
    (h : SegOp l l' a b) (ha : a' ≤ a) (hb : b ≤ b') : SegOp l l' a' b' := by
  obtain ⟨hl, ho, hm⟩ := h
  refine ⟨hl, fun i hi => ho i (by omega), ?_⟩
  intro i hai hib
  by_cases hseg : a ≤ i ∧ i < b
  · obtain ⟨j, haj, hjb, hj⟩ := hm i hseg.1 hseg.2
    exact ⟨j, by omega, by omega, hj⟩
  · exact ⟨i, hai, hib, ho i (by omega)⟩

theorem lswap_segOp (l : List α) {i j a b : Nat}
    (hai : a ≤ i) (hib : i < b) (haj : a ≤ j) (hjb : j < b) :
    SegOp l (lswap l i j) a b := by
  by_cases hin : i < l.length ∧ j < l.length
  · refine ⟨lswap_length l i j, ?_, ?_⟩
    · intro k hk
      rw [lget_lswap l i j k hin.1 hin.2, if_neg (by omega), if_neg (by omega)]
    · intro k hak hkb
      rw [lget_lswap l i j k hin.1 hin.2]
      by_cases hk1 : k = i
      · exact ⟨j, haj, hjb, by rw [if_pos hk1]⟩
      · by_cases hk2 : k = j
        · exact ⟨i, hai, hib, by rw [if_neg hk1, if_pos hk2]⟩
        · exact ⟨k, hak, hkb, by rw [if_neg hk1, if_neg hk2]⟩
  · rw [lswap, if_neg hin]
    exact segOp_refl l a b

theorem segOp_transport {l l' : List α} {a b : Nat} (P : α → Prop)
    (h : SegOp l l' a b) (hv : ∀ i, a ≤ i → i < b → P (lget l i)) :
    ∀ i, a ≤ i → i < b → P (lget l' i) := by
  intro i hai hib
  obtain ⟨j, haj, hjb, hj⟩ := h.2.2 i hai hib
  rw [hj]
  exact hv j haj hjb

theorem sortedSeg_of_eq {l l' : List α} {a b : Nat}
    (h : ∀ i, a ≤ i → i < b → lget l' i = lget l i)
    (hs : SortedSeg less l a b) : SortedSeg less l' a b := by
  intro i j hai hij hjb
  rw [h i hai (by omega), h j (by omega) hjb]
  exact hs i j hai hij hjb

/-! #### Bounds of the index scans -/

theorem scanLtForward_ge (l : List α) (pivot c : Nat) :
    ∀ (fuel a : Nat), a ≤ scanLtForward less l pivot c a fuel := by
  intro fuel
  induction fuel with
  | zero => intro a; exact Nat.le_refl a
  | succ fuel ih =>
    intro a
    rw [scanLtForward]
    split
    · exact (Nat.le_succ a).trans (ih (a + 1))
    · exact Nat.le_refl a

theorem scanLtForward_le_max (l : List α) (pivot c : Nat) :
    ∀ (fuel a : Nat), scanLtForward less l pivot c a fuel ≤ max a c := by
  intro fuel
  induction fuel with
  | zero => intro a; exact Nat.le_max_left a c
  | succ fuel ih =>
    intro a
    rw [scanLtForward]
    split
    case isTrue h => exact (ih (a + 1)).trans (by omega)
    case isFalse h => exact Nat.le_max_left a c

theorem scanLeForward_ge (l : List α) (pivot c : Nat) :
    ∀ (fuel b : Nat), b ≤ scanLeForward less l pivot c b fuel := by
  intro fuel
  induction fuel with
  | zero => intro b; exact Nat.le_refl b
  | succ fuel ih =>
    intro b
    rw [scanLeForward]
    split
    · exact (Nat.le_succ b).trans (ih (b + 1))
    · exact Nat.le_refl b

theorem scanLeForward_le_max (l : List α) (pivot c : Nat) :
    ∀ (fuel b : Nat), scanLeForward less l pivot c b fuel ≤ max b c := by
  intro fuel
  induction fuel with
  | zero => intro b; exact Nat.le_max_left b c
  | succ fuel ih =>
    intro b
    rw [scanLeForward]
    split
    case isTrue h => exact (ih (b + 1)).trans (by omega)
    case isFalse h => exact Nat.le_max_left b c

theorem scanGtBackward_le (l : List α) (pivot b : Nat) :
    ∀ (fuel c : Nat), scanGtBackward less l pivot b c fuel ≤ c := by
  intro fuel
  induction fuel with
  | zero => intro c; exact Nat.le_refl c
  | succ fuel ih =>
    intro c
    rw [scanGtBackward]
    split
    · exact (ih (c - 1)).trans (by omega)
    · exact Nat.le_refl c

theorem scanGtBackward_ge_min (l : List α) (pivot b : Nat) :
    ∀ (fuel c : Nat), min b c ≤ scanGtBackward less l pivot b c fuel := by
  intro fuel
  induction fuel with
  | zero => intro c; exact Nat.min_le_right b c
  | succ fuel ih =>
    intro c
    rw [scanGtBackward]
    split
    case isTrue h => exact le_trans (by omega) (ih (c - 1))
    case isFalse h => exact Nat.min_le_right b c

theorem scanEqBackward_le (l : List α) (pivot a : Nat) :
    ∀ (fuel b : Nat), scanEqBackward less l pivot a b fuel ≤ b := by
  intro fuel
  induction fuel with
  | zero => intro b; exact Nat.le_refl b
  | succ fuel ih =>
    intro b
    rw [scanEqBackward]
    split
    · exact (ih (b - 1)).trans (by omega)
    · exact Nat.le_refl b

theorem scanEqBackward_ge_min (l : List α) (pivot a : Nat) :
    ∀ (fuel b : Nat), min a b ≤ scanEqBackward less l pivot a b fuel := by
  intro fuel
  induction fuel with
  | zero => intro b; exact Nat.min_le_right a b
  | succ fuel ih =>
    intro b
    rw [scanEqBackward]
    split
    case isTrue h => exact le_trans (by omega) (ih (b - 1))
    case isFalse h => exact Nat.min_le_right a b

/-! #### Every phase is a segment operation -/

theorem insertionInner_segOp (a : Nat) : ∀ (j : Nat) (l : List α),
    SegOp l (insertionInner less a l j) a (j + 1) := by
  intro j
  induction j with
  | zero => intro l; exact segOp_refl l a 1
  | succ j ih =>
    intro l
    rw [insertionInner]
    split
    case isTrue h =>
      exact segOp_trans
        (lswap_segOp l (by omega) (by omega) (by omega) (by omega))
        (segOp_mono (ih _) (Nat.le_refl a) (by omega))
    case isFalse h => exact segOp_refl l a (j + 2)

theorem insertionLoop_segOp (a : Nat) : ∀ (fuel : Nat) (l : List α) (i : Nat),
    a ≤ i → SegOp l (insertionLoop less a l i fuel) a (i + fuel) := by
  intro fuel
  induction fuel with
  | zero => intro l i _; exact segOp_refl l a i
  | succ fuel ih =>
    intro l i hai
    rw [insertionLoop]
    exact segOp_trans
      (segOp_mono (insertionInner_segOp less a i l) (Nat.le_refl a) (by omega))
      (by
        have h := ih (insertionInner less a l i) (i + 1) (by omega)
        exact segOp_mono h (Nat.le_refl a) (by omega))

theorem insertionSortGo_segOp (l : List α) (a b : Nat) (hab : a + 1 ≤ b) :
    SegOp l (insertionSortGo less l a b) a b := by
  unfold insertionSortGo
  have h := insertionLoop_segOp less a (b - (a + 1)) l (a + 1) (by omega)
  exact segOp_mono h (Nat.le_refl a) (by omega)

theorem shellLoop_segOp : ∀ (fuel : Nat) (l : List α) (i : Nat), 6 ≤ i →
    SegOp l (shellLoop less l i fuel) (i - 6) (i + fuel) := by
  intro fuel
  induction fuel with
  | zero => intro l i _; exact segOp_refl l (i - 6) i
  | succ fuel ih =>
    intro l i h6
    simp only [shellLoop]
    split
    case isTrue hc =>
      exact segOp_trans
        (lswap_segOp l (by omega) (by omega) (by omega) (by omega))
        (segOp_mono (ih (lswap l i (i - 6)) (i + 1) (by omega)) (by omega) (by omega))
    case isFalse hc =>
      exact segOp_mono (ih l (i + 1) (by omega)) (by omega) (by omega)

theorem shellPass_segOp (l : List α) (a b : Nat) :
    SegOp l (shellPass less l a b) a b := by
  unfold shellPass
  by_cases hb : a + 6 ≤ b
  · have h := shellLoop_segOp less (b - (a + 6)) l (a + 6) (by omega)
    exact segOp_mono h (by omega) (by omega)
  · have hz : b - (a + 6) = 0 := by omega
    rw [hz, shellLoop]
    exact segOp_refl l a b

theorem smallSort_segOp (l : List α) (a b : Nat) :
    SegOp l (smallSort less l a b) a b := by
  unfold smallSort
  split
  case isTrue h =>
    exact segOp_trans (shellPass_segOp less l a b)
      (insertionSortGo_segOp less _ a b (by omega))
  case isFalse h => exact segOp_refl l a b

theorem siftDown_segOp (first hi : Nat) : ∀ (fuel : Nat) (l : List α) (root : Nat),
    SegOp l (siftDown less l root hi first fuel) first (first + hi) := by
  intro fuel
  induction fuel with
  | zero => intro l root; exact segOp_refl l first (first + hi)
  | succ fuel ih =>
    intro l root
    simp only [siftDown]
    split
    · exact segOp_refl l first (first + hi)
    · split <;> split <;>
        first
          | exact segOp_refl _ first (first + hi)
          | exact segOp_trans
              (lswap_segOp _ (by omega) (by omega) (by omega) (by omega))
              (ih _ _)

theorem heapBuild_segOp (first hi : Nat) : ∀ (k : Nat) (l : List α),
    SegOp l (heapBuild less first hi l k) first (first + hi) := by
  intro k
  induction k with
  | zero => intro l; exact segOp_refl l first (first + hi)
  | succ k ih =>
    intro l
    rw [heapBuild]
    exact segOp_trans (siftDown_segOp less first hi _ l k) (ih _)

theorem heapPop_segOp (first hi : Nat) : ∀ (k : Nat) (l : List α), k ≤ hi →
    SegOp l (heapPop less first l k) first (first + hi) := by
  intro k
  induction k with
  | zero => intro l _; exact segOp_refl l first (first + hi)
  | succ k ih =>
    intro l hk
    rw [heapPop]
    exact segOp_trans
      (segOp_trans (lswap_segOp l (by omega) (by omega) (by omega) (by omega))
        (segOp_mono (siftDown_segOp less first k (k + 1) _ 0) (Nat.le_refl first)
          (by omega)))
      (ih _ (by omega))

theorem heapSortGo_segOp (l : List α) (a b : Nat) (hab : a ≤ b) :
    SegOp l (heapSortGo less l a b) a b := by
  simp only [heapSortGo]
  exact segOp_mono
    (segOp_trans (heapBuild_segOp less a (b - a) _ l)
      (heapPop_segOp less a (b - a) (b - a) _ (Nat.le_refl _)))
    (Nat.le_refl a) (by omega)

theorem medianOfThree_segOp (l : List α) {m1 m0 m2 a b : Nat}
    (h1a : a ≤ m1) (h1b : m1 < b) (h0a : a ≤ m0) (h0b : m0 < b)
    (h2a : a ≤ m2) (h2b : m2 < b) :
    SegOp l (medianOfThree less l m1 m0 m2) a b := by
  simp only [medianOfThree]
  split_ifs <;>
    first
      | exact segOp_refl _ a b
      | exact lswap_segOp _ h1a h1b h0a h0b
      | exact segOp_trans (lswap_segOp _ h1a h1b h0a h0b)
          (lswap_segOp _ h2a h2b h1a h1b)
      | exact segOp_trans (lswap_segOp _ h1a h1b h0a h0b)
          (segOp_trans (lswap_segOp _ h2a h2b h1a h1b)
            (lswap_segOp _ h1a h1b h0a h0b))
      | exact lswap_segOp _ h2a h2b h1a h1b
      | exact segOp_trans (lswap_segOp _ h2a h2b h1a h1b)
          (lswap_segOp _ h1a h1b h0a h0b)

theorem nintherStage_segOp (l : List α) (lo hi m : Nat) (hm : m = (lo + hi) / 2)
    (hlo : lo < hi) :
    SegOp l (nintherStage less l lo hi m) lo hi := by
  simp only [nintherStage]
  split
  case isTrue h40 =>
    exact segOp_trans
      (medianOfThree_segOp less l (by omega) (by omega) (by omega)
        (by omega) (by omega) (by omega))
      (segOp_trans
        (medianOfThree_segOp less _ (by omega) (by omega) (by omega)
          (by omega) (by omega) (by omega))
        (medianOfThree_segOp less _ (by omega) (by omega) (by omega)
          (by omega) (by omega) (by omega)))
  case isFalse h40 => exact segOp_refl l lo hi

theorem partitionLoop_segOp (pivot L R : Nat) : ∀ (fuel : Nat) (l : List α) (b c : Nat),
    L ≤ b → c ≤ R →
    SegOp l (partitionLoop less pivot l b c fuel).1 L R := by
  intro fuel
  induction fuel with
  | zero => intro l b c _ _; exact segOp_refl l L R
  | succ fuel ih =>
    intro l b c hLb hcR
    simp only [partitionLoop]
    split
    · exact segOp_refl l L R
    case isFalse hbc =>
      have hb' := scanLeForward_ge less l pivot c (c + 1) b
      have hb'le := scanLeForward_le_max less l pivot c (c + 1) b
      have hc'le := scanGtBackward_le less l pivot
        (scanLeForward less l pivot c b (c + 1)) (c + 1) c
      refine segOp_trans (lswap_segOp l (by omega) (by omega) (by omega) (by omega))
        (ih _ _ _ (by omega) (by omega))

theorem protectLoop_segOp (pivot L R : Nat) : ∀ (fuel : Nat) (l : List α) (a b : Nat),
    L ≤ a → b ≤ R →
    SegOp l (protectLoop less pivot l a b fuel).1 L R := by
  intro fuel
  induction fuel with
  | zero => intro l a b _ _; exact segOp_refl l L R
  | succ fuel ih =>
    intro l a b hLa hbR
    simp only [protectLoop]
    split
    · exact segOp_refl l L R
    case isFalse hab =>
      have hble := scanEqBackward_le less l pivot a (b + 1) b
      have hage := scanLtForward_ge less l pivot
        (scanEqBackward less l pivot a b (b + 1))
        (scanEqBackward less l pivot a b (b + 1) + 1) a
      refine segOp_trans (lswap_segOp l (by omega) (by omega) (by omega) (by omega))
        (ih _ _ _ (by omega) (by omega))

theorem dupsAdjust_segOp (l : List α) {pivot m lo hi b c : Nat}
    (hc1 : lo ≤ c) (hcb : c ≤ b) (hb2 : b ≤ hi) (hm1 : lo ≤ m) (hm2 : m < hi) :
    SegOp l (dupsAdjust less l pivot m lo hi b c).1 lo hi := by
  simp only [dupsAdjust]
  split_ifs <;> dsimp only <;>
    first
      | exact segOp_refl _ lo hi
      | exact lswap_segOp _ (by omega) (by omega) (by omega) (by omega)
      | exact segOp_trans
          (lswap_segOp _ (by omega) (by omega) (by omega) (by omega))
          (lswap_segOp _ (by omega) (by omega) (by omega) (by omega))

theorem protectStage_segOp (l : List α) {pivot a b lo hi : Nat} (protect : Bool)
    (ha : lo ≤ a) (hb : b ≤ hi) :
    SegOp l (protectStage less pivot l a b protect).1 lo hi := by
  simp only [protectStage]
  split
  · exact protectLoop_segOp less pivot lo hi (b + 1) l a b ha hb
  · exact segOp_refl l lo hi

/-! #### Index bounds of the partition results -/

theorem partitionLoop_bounds (pivot LB M : Nat) : ∀ (fuel : Nat) (l : List α) (b c : Nat),
    LB ≤ b → b ≤ M → LB ≤ c + 1 → c ≤ M → c - b < 2 * fuel + 1 →
    LB ≤ (partitionLoop less pivot l b c fuel).2.1
    ∧ (partitionLoop less pivot l b c fuel).2.1 ≤ M
    ∧ LB ≤ (partitionLoop less pivot l b c fuel).2.2 + 1
    ∧ (partitionLoop less pivot l b c fuel).2.2 ≤ M
    ∧ (partitionLoop less pivot l b c fuel).2.2 ≤ (partitionLoop less pivot l b c fuel).2.1 := by
  intro fuel
  induction fuel with
  | zero =>
    intro l b c hb1 hb2 hc1 hc2 hf
    simp only [partitionLoop]
    omega
  | succ fuel ih =>
    intro l b c hb1 hb2 hc1 hc2 hf
    simp only [partitionLoop]
    have hbge := scanLeForward_ge less l pivot c (c + 1) b
    have hble := scanLeForward_le_max less l pivot c (c + 1) b
    have hcle := scanGtBackward_le less l pivot
      (scanLeForward less l pivot c b (c + 1)) (c + 1) c
    have hcge := scanGtBackward_ge_min less l pivot
      (scanLeForward less l pivot c b (c + 1)) (c + 1) c
    split
    case isTrue h => dsimp only; omega
    case isFalse h =>
      exact ih _ _ _ (by omega) (by omega) (by omega) (by omega) (by omega)

theorem protectLoop_b_bounds (pivot LB M : Nat) : ∀ (fuel : Nat) (l : List α) (a b : Nat),
    LB ≤ a → LB ≤ b → b ≤ M →
    LB ≤ (protectLoop less pivot l a b fuel).2.2
    ∧ (protectLoop less pivot l a b fuel).2.2 ≤ M := by
  intro fuel
  induction fuel with
  | zero => intro l a b ha hb1 hb2; exact ⟨hb1, hb2⟩
  | succ fuel ih =>
    intro l a b ha hb1 hb2
    simp only [protectLoop]
    have hble := scanEqBackward_le less l pivot a (b + 1) b
    have hbge := scanEqBackward_ge_min less l pivot a (b + 1) b
    have hage := scanLtForward_ge less l pivot
      (scanEqBackward less l pivot a b (b + 1))
      (scanEqBackward less l pivot a b (b + 1) + 1) a
    split
    case isTrue h => dsimp only; omega
    case isFalse h =>
      exact ih _ _ _ (by omega) (by omega) (by omega)

theorem dupsAdjust_b_bounds (l : List α) {pivot m lo hi b c : Nat}
    (hb1 : lo + 1 ≤ b) (hb2 : b ≤ hi - 1) (hc1 : lo ≤ c) (hcb : c ≤ b) :
    lo + 1 ≤ (dupsAdjust less l pivot m lo hi b c).2.1
    ∧ (dupsAdjust less l pivot m lo hi b c).2.1 ≤ hi - 1 := by
  simp only [dupsAdjust]
  split_ifs <;> dsimp only <;> omega

theorem protectStage_b_bounds (pivot LB M : Nat) (l : List α) (a b : Nat) (protect : Bool)
    (ha : LB ≤ a) (hb1 : LB ≤ b) (hb2 : b ≤ M) :
    LB ≤ (protectStage less pivot l a b protect).2
    ∧ (protectStage less pivot l a b protect).2 ≤ M := by
  simp only [protectStage]
  split
  · dsimp only
    exact protectLoop_b_bounds less pivot LB M (b + 1) l a b ha hb1 hb2
  · exact ⟨hb1, hb2⟩

/-! #### Reading a swapped list -/

theorem lget_lswap_fst (l : List α) {i j : Nat} (hi : i < l.length) (hj : j < l.length) :
    lget (lswap l i j) i = lget l j := by
  rw [lget_lswap l i j i hi hj, if_pos rfl]

theorem lget_lswap_snd (l : List α) {i j : Nat} (hi : i < l.length) (hj : j < l.length) :
    lget (lswap l i j) j = lget l i := by
  rw [lget_lswap l i j j hi hj]
  by_cases h : j = i
  · rw [if_pos h, h]
  · rw [if_neg h, if_pos rfl]

theorem lget_lswap_other (l : List α) {i j k : Nat} (h1 : k ≠ i) (h2 : k ≠ j) :
    lget (lswap l i j) k = lget l k := by
  unfold lswap
  split
  · rw [lget_set_ne _ _ (Ne.symm h2), lget_set_ne _ _ (Ne.symm h1)]
  · rfl

/-! #### The heap phase establishes and uses the heap property -/

theorem less_self_false
    (hasym : ∀ x y : α, less x y = true → less y x = false) (x : α) :
    less x x = false := by
  cases h : less x x
  · rfl
  · have h2 := hasym x x h
    rw [h] at h2
    exact h2

theorem siftDown_step
    (hasym : ∀ x y : α, less x y = true → less y x = false)
    (first hi : Nat) (l : List α) (t root ch : Nat)
    (hlen : first + hi ≤ l.length)
    (hroot : root < hi) (hch : ch < hi)
    (hchild : ch = 2 * root + 1 ∨ ch = 2 * root + 2)
    (hmax : ∀ c, c < hi → (c = 2 * root + 1 ∨ c = 2 * root + 2) →
      less (lget l (first + ch)) (lget l (first + c)) = false ∨ c = ch)
    (hcmp : less (lget l (first + root)) (lget l (first + ch)) = true)
    (hhea : ∀ r c, t ≤ r → r ≠ root → c < hi → (c = 2 * r + 1 ∨ c = 2 * r + 2) →
      less (lget l (first + r)) (lget l (first + c)) = false)
    (hpar : ∀ c, c < hi → (c = 2 * root + 1 ∨ c = 2 * root + 2) → t < root →
      less (lget l (first + (root - 1) / 2)) (lget l (first + c)) = false)
    (ht : t ≤ root) :
    (∀ r c, t ≤ r → r ≠ ch → c < hi → (c = 2 * r + 1 ∨ c = 2 * r + 2) →
      less (lget (lswap l (first + root) (first + ch)) (first + r))
        (lget (lswap l (first + root) (first + ch)) (first + c)) = false)
    ∧ (∀ c, c < hi → (c = 2 * ch + 1 ∨ c = 2 * ch + 2) → t < ch →
      less (lget (lswap l (first + root) (first + ch)) (first + (ch - 1) / 2))
        (lget (lswap l (first + root) (first + ch)) (first + c)) = false) := by
  have hr0 : first + root < l.length := by omega
  have hc0 : first + ch < l.length := by omega
  constructor
  · intro r c hr hrch hc hcc
    by_cases hrr : r = root
    · subst hrr
      rw [lget_lswap_fst l hr0 hc0]
      by_cases hcch : c = ch
      · subst hcch
        rw [lget_lswap_snd l hr0 hc0]
        exact hasym _ _ hcmp
      · rw [lget_lswap_other l (by omega) (by omega)]
        rcases hmax c hc hcc with hx | hx
        · exact hx
        · exact absurd hx hcch
    · rw [lget_lswap_other l (by omega) (by omega)]
      by_cases hcr : c = root
      · subst hcr
        rw [lget_lswap_fst l hr0 hc0]
        have hrpar : r = (c - 1) / 2 := by omega
        rw [hrpar]
        exact hpar ch hch hchild (by omega)
      · by_cases hcch : c = ch
        · exfalso; omega
        · rw [lget_lswap_other l (by omega) (by omega)]
          exact hhea r c hr hrr hc hcc
  · intro c hc hcc htch
    have hpc : (ch - 1) / 2 = root := by omega
    rw [hpc, lget_lswap_fst l hr0 hc0,
      lget_lswap_other l (by omega) (by omega)]
    exact hhea ch c (by omega) (by omega) hc hcc

theorem siftDown_heapFrom
    (htc : ∀ x y z : α, less x y = false → less y z = false → less x z = false)
    (hasym : ∀ x y : α, less x y = true → less y x = false)
    (first hi : Nat) : ∀ (fuel : Nat) (l : List α) (t root : Nat),
    first + hi ≤ l.length → hi ≤ fuel + root → t ≤ root →
    (∀ r c, t ≤ r → r ≠ root → c < hi → (c = 2 * r + 1 ∨ c = 2 * r + 2) →
      less (lget l (first + r)) (lget l (first + c)) = false) →
    (∀ c, c < hi → (c = 2 * root + 1 ∨ c = 2 * root + 2) → t < root →
      less (lget l (first + (root - 1) / 2)) (lget l (first + c)) = false) →
    HeapFrom less (siftDown less l root hi first fuel) first hi t := by
  intro fuel
  induction fuel with
  | zero =>
    intro l t root hlen hf ht hhea hpar
    intro r c hr hc hcc
    by_cases hrr : r = root
    · exfalso; subst hrr; omega
    · exact hhea r c hr hrr hc hcc
  | succ fuel ih =>
    intro l t root hlen hf ht hhea hpar
    simp only [siftDown]
    split
    case isTrue hbig =>
      intro r c hr hc hcc
      by_cases hrr : r = root
      · exfalso; subst hrr; omega
      · exact hhea r c hr hrr hc hcc
    case isFalse hbig =>
      split
      case isTrue hsel =>
        split
        case isTrue hcmp =>
          intro r c hr hc hcc
          by_cases hrr : r = root
          · subst hrr
            rcases hcc with rfl | rfl
            · exact htc _ _ _ hcmp (hasym _ _ hsel.2)
            · exact hcmp
          · exact hhea r c hr hrr hc hcc
        case isFalse hcmp =>
          have hcmp' : less (lget l (first + root))
              (lget l (first + (2 * root + 1 + 1))) = true := by
            cases h : less (lget l (first + root)) (lget l (first + (2 * root + 1 + 1)))
            · exact absurd h hcmp
            · rfl
          have hstep := siftDown_step less hasym first hi l t root (2 * root + 1 + 1)
            hlen (by omega) (by omega) (Or.inr rfl)
            (fun c hc hcc => by
              rcases hcc with rfl | rfl
              · exact Or.inl (hasym _ _ hsel.2)
              · exact Or.inr rfl)
            hcmp' hhea hpar ht
          exact ih _ t _ (by rw [lswap_length]; exact hlen) (by omega) (by omega)
            hstep.1 hstep.2
      case isFalse hsel =>
        split
        case isTrue hcmp =>
          intro r c hr hc hcc
          by_cases hrr : r = root
          · subst hrr
            rcases hcc with rfl | rfl
            · exact hcmp
            · cases hlt : less (lget l (first + (2 * r + 1)))
                  (lget l (first + (2 * r + 1) + 1)) with
              | false => exact htc _ _ _ hcmp hlt
              | true => exact absurd ⟨by omega, hlt⟩ hsel
          · exact hhea r c hr hrr hc hcc
        case isFalse hcmp =>
          have hcmp' : less (lget l (first + root))
              (lget l (first + (2 * root + 1))) = true := by
            cases h : less (lget l (first + root)) (lget l (first + (2 * root + 1)))
            · exact absurd h hcmp
            · rfl
          have hstep := siftDown_step less hasym first hi l t root (2 * root + 1)
            hlen (by omega) (by omega) (Or.inl rfl)
            (fun c hc hcc => by
              rcases hcc with rfl | rfl
              · exact Or.inr rfl
              · cases hlt : less (lget l (first + (2 * root + 1)))
                    (lget l (first + (2 * root + 1) + 1)) with
                | false => exact Or.inl hlt
                | true => exact absurd ⟨by omega, hlt⟩ hsel)
            hcmp' hhea hpar ht
          exact ih _ t _ (by rw [lswap_length]; exact hlen) (by omega) (by omega)
            hstep.1 hstep.2

theorem heapBuild_heapFrom
    (htc : ∀ x y z : α, less x y = false → less y z = false → less x z = false)
    (hasym : ∀ x y : α, less x y = true → less y x = false)
    (first hi : Nat) : ∀ (k : Nat) (l : List α),
    first + hi ≤ l.length →
    HeapFrom less l first hi k →
    HeapFrom less (heapBuild less first hi l k) first hi 0 := by
  intro k
  induction k with
  | zero => intro l _ h; exact h
  | succ k ih =>
    intro l hlen h
    rw [heapBuild]
    refine ih _ ?_ ?_
    · rw [(siftDown_segOp less first hi (hi + 1) l k).1]
      exact hlen
    · exact siftDown_heapFrom less htc hasym first hi (hi + 1) l k k hlen (by omega)
        (Nat.le_refl k)
        (fun r c hr hrk hc hcc => h r c (by omega) hc hcc)
        (fun c hc hcc hlt => absurd hlt (by omega))

theorem heap_desc
    (htc : ∀ x y z : α, less x y = false → less y z = false → less x z = false)
    (hasym : ∀ x y : α, less x y = true → less y x = false)
    (first hi : Nat) (l : List α)
    (hh : HeapFrom less l first hi 0) : ∀ (n j : Nat), j ≤ n → j < hi →
    less (lget l first) (lget l (first + j)) = false := by
  intro n
  induction n with
  | zero =>
    intro j hj hjh
    have hj0 : j = 0 := by omega
    subst hj0
    exact less_self_false less hasym _
  | succ n ih =>
    intro j hj hjh
    by_cases hj0 : j = 0
    · subst hj0
      exact less_self_false less hasym _
    · exact htc _ _ _ (ih ((j - 1) / 2) (by omega) (by omega))
        (hh ((j - 1) / 2) j (Nat.zero_le _) hjh (by omega))

theorem heapPop_sorted
    (htc : ∀ x y z : α, less x y = false → less y z = false → less x z = false)
    (hasym : ∀ x y : α, less x y = true → less y x = false)
    (first hi : Nat) : ∀ (k : Nat) (l : List α),
    k ≤ hi → first + hi ≤ l.length →
    HeapFrom less l first k 0 →
    SortedSeg less l (first + k) (first + hi) →
    (∀ i j, i < k → k ≤ j → j < hi →
      less (lget l (first + j)) (lget l (first + i)) = false) →
    SortedSeg less (heapPop less first l k) first (first + hi) := by
  intro k
  induction k with
  | zero =>
    intro l _ _ _ hsuf _
    intro i j hai hij hjb
    exact hsuf i j (by omega) hij hjb
  | succ k ih =>
    intro l hk hlen hheap hsuf hdom
    rw [heapPop]
    have hfl : first < l.length := by omega
    have hfk : first + k < l.length := by omega
    have hso := siftDown_segOp less first k (k + 1) (lswap l first (first + k)) 0
    refine ih _ (by omega) ?_ ?_ ?_ ?_
    · rw [hso.1, lswap_length]
      exact hlen
    · refine siftDown_heapFrom less htc hasym first k (k + 1) _ 0 0 ?_ (by omega)
        (Nat.le_refl 0) ?_ ?_
      · rw [lswap_length]; omega
      · intro r c hr hrr hc hcc
        rw [lget_lswap_other l (by omega) (by omega),
          lget_lswap_other l (by omega) (by omega)]
        exact hheap r c (Nat.zero_le r) (by omega) hcc
      · intro c hc hcc hlt
        exact absurd hlt (by omega)
    · intro i j hai hij hjb
      rw [hso.2.1 j (Or.inr (by omega)), hso.2.1 i (Or.inr (by omega))]
      by_cases hik2 : i = first + k
      · subst hik2
        rw [lget_lswap_snd l hfl hfk, lget_lswap_other l (by omega) (by omega)]
        rw [show j = first + (j - first) from by omega]
        exact hdom 0 (j - first) (by omega) (by omega) (by omega)
      · rw [lget_lswap_other l (by omega) (by omega),
          lget_lswap_other l (by omega) (by omega)]
        exact hsuf i j (by omega) hij hjb
    · intro i j hik hkj hjh
      obtain ⟨j0, hj0a, hj0b, hj0v⟩ := hso.2.2 (first + i) (by omega) (by omega)
      rw [hj0v, hso.2.1 (first + j) (Or.inr (by omega))]
      have hval : ∃ j1, j1 < k + 1 ∧
          lget (lswap l first (first + k)) j0 = lget l (first + j1) := by
        by_cases hj00 : j0 = first
        · subst hj00
          rw [lget_lswap_fst l hfl hfk]
          exact ⟨k, by omega, rfl⟩
        · rw [lget_lswap_other l (by omega) (by omega)]
          exact ⟨j0 - first, by omega, by
            rw [show first + (j0 - first) = j0 from by omega]⟩
      obtain ⟨j1, hj1, hj1v⟩ := hval
      rw [hj1v]
      by_cases hjk : j = k
      · subst hjk
        rw [lget_lswap_snd l hfl hfk]
        exact heap_desc less htc hasym first (j + 1) l hheap j1 j1 (Nat.le_refl j1) hj1
      · rw [lget_lswap_other l (by omega) (by omega)]
        exact hdom j1 j (by omega) (by omega) hjh

theorem heapSortGo_sorted
    (htc : ∀ x y z : α, less x y = false → less y z = false → less x z = false)
    (hasym : ∀ x y : α, less x y = true → less y x = false)
    (l : List α) (a b : Nat) (hab : a ≤ b) (hblen : b ≤ l.length) :
    SortedSeg less (heapSortGo less l a b) a b := by
  simp only [heapSortGo]
  have hlen2 : (heapBuild less a (b - a) l ((b - a - 1) / 2 + 1)).length = l.length :=
    (heapBuild_segOp less a (b - a) ((b - a - 1) / 2 + 1) l).1
  have hheap : HeapFrom less (heapBuild less a (b - a) l ((b - a - 1) / 2 + 1))
      a (b - a) 0 := by
    refine heapBuild_heapFrom less htc hasym a (b - a) ((b - a - 1) / 2 + 1) l
      (by omega) ?_
    intro r c hr hc hcc
    exfalso
    omega
  have hfin := heapPop_sorted less htc hasym a (b - a) (b - a) _ (Nat.le_refl _)
    (by rw [hlen2]; omega) hheap
    (by intro i j hai hij hjb; exfalso; omega)
    (by intro i j h1 h2 h3; exfalso; omega)
  intro i j hai hij hjb
  exact hfin i j hai hij (by omega)

theorem doPivot_segOp (l : List α) {lo hi : Nat} (h12 : 12 < hi - lo) :
    SegOp l (doPivot less l lo hi).1 lo hi := by
  simp only [doPivot]
  generalize hm : (lo + hi) / 2 = m
  generalize hl1 : nintherStage less l lo hi m = l1
  have h1 : SegOp l l1 lo hi := by
    rw [← hl1]
    exact nintherStage_segOp less l lo hi m hm.symm (by omega)
  generalize hl2 : medianOfThree less l1 lo m (hi - 1) = l2
  have h2 : SegOp l1 l2 lo hi := by
    rw [← hl2]
    exact medianOfThree_segOp less l1 (Nat.le_refl lo) (by omega) (by omega) (by omega)
      (by omega) (by omega)
  generalize hA : scanLtForward less l2 lo (hi - 1) (lo + 1) hi = A
  have hA1 : lo + 1 ≤ A := by
    rw [← hA]
    exact scanLtForward_ge less l2 lo (hi - 1) hi (lo + 1)
  have hA2 : A ≤ hi - 1 := by
    rw [← hA]
    have := scanLtForward_le_max less l2 lo (hi - 1) hi (lo + 1)
    omega
  generalize hp : partitionLoop less lo l2 A (hi - 1) (hi + 1) = p
  have h3 : SegOp l2 p.1 lo hi := by
    rw [← hp]
    exact partitionLoop_segOp less lo lo hi (hi + 1) l2 A (hi - 1) (by omega) (by omega)
  have hpb : lo + 1 ≤ p.2.1 ∧ p.2.1 ≤ hi - 1 ∧ lo + 1 ≤ p.2.2 + 1 ∧ p.2.2 ≤ hi - 1
      ∧ p.2.2 ≤ p.2.1 := by
    rw [← hp]
    exact partitionLoop_bounds less lo (lo + 1) (hi - 1) (hi + 1) l2 A (hi - 1)
      hA1 hA2 (by omega) (by omega) (by omega)
  obtain ⟨hpb1, hpb2, hpb3, hpb4, hpb5⟩ := hpb
  generalize hq : dupsAdjust less p.1 lo m lo hi p.2.1 p.2.2 = q
  have h4 : SegOp p.1 q.1 lo hi := by
    rw [← hq]
    exact dupsAdjust_segOp less p.1 (by omega) (by omega) (by omega) (by omega) (by omega)
  have hqb : lo + 1 ≤ q.2.1 ∧ q.2.1 ≤ hi - 1 := by
    rw [← hq]
    exact dupsAdjust_b_bounds less p.1 hpb1 hpb2 (by omega) hpb5
  generalize hr : protectStage less lo q.1 A q.2.1 q.2.2.2 = r
  have h5 : SegOp q.1 r.1 lo hi := by
    rw [← hr]
    exact protectStage_segOp less q.1 q.2.2.2 (by omega) (by omega)
  have hrb : lo + 1 ≤ r.2 ∧ r.2 ≤ hi - 1 := by
    rw [← hr]
    exact protectStage_b_bounds less lo (lo + 1) (hi - 1) q.1 A q.2.1 q.2.2.2
      (by omega) (by omega) (by omega)
  exact segOp_trans h1 (segOp_trans h2 (segOp_trans h3 (segOp_trans h4 (segOp_trans h5
    (lswap_segOp r.1 (by omega) (by omega) (by omega) (by omega))))))

/-! #### Value certificates of the index scans -/

theorem scanLtForward_scanned (l : List α) (pivot c : Nat) :
    ∀ (fuel a i : Nat), a ≤ i → i < scanLtForward less l pivot c a fuel →
    less (lget l i) (lget l pivot) = true := by
  intro fuel
  induction fuel with
  | zero =>
    intro a i h1 h2
    simp only [scanLtForward] at h2
    exfalso; omega
  | succ fuel ih =>
    intro a i h1 h2
    simp only [scanLtForward] at h2
    by_cases hg : a < c ∧ less (lget l a) (lget l pivot) = true
    · rw [if_pos hg] at h2
      by_cases hia : i = a
      · subst hia; exact hg.2
      · exact ih (a + 1) i (by omega) h2
    · rw [if_neg hg] at h2
      exfalso; omega

theorem scanLtForward_stop (l : List α) (pivot c : Nat) :
    ∀ (fuel a : Nat), c ≤ a + fuel →
    scanLtForward less l pivot c a fuel < c →
    less (lget l (scanLtForward less l pivot c a fuel)) (lget l pivot) = false := by
  intro fuel
  induction fuel with
  | zero =>
    intro a hf h
    simp only [scanLtForward] at h
    exfalso; omega
  | succ fuel ih =>
    intro a hf h
    simp only [scanLtForward] at h ⊢
    by_cases hg : a < c ∧ less (lget l a) (lget l pivot) = true
    · rw [if_pos hg] at h ⊢
      exact ih (a + 1) (by omega) h
    · rw [if_neg hg] at h ⊢
      cases hx : less (lget l a) (lget l pivot)
      · rfl
      · exact absurd ⟨h, hx⟩ hg

theorem scanLeForward_scanned (l : List α) (pivot c : Nat) :
    ∀ (fuel b i : Nat), b ≤ i → i < scanLeForward less l pivot c b fuel →
    less (lget l pivot) (lget l i) = false := by
  intro fuel
  induction fuel with
  | zero =>
    intro b i h1 h2
    simp only [scanLeForward] at h2
    exfalso; omega
  | succ fuel ih =>
    intro b i h1 h2
    simp only [scanLeForward] at h2
    by_cases hg : b < c ∧ less (lget l pivot) (lget l b) = false
    · rw [if_pos hg] at h2
      by_cases hib : i = b
      · subst hib; exact hg.2
      · exact ih (b + 1) i (by omega) h2
    · rw [if_neg hg] at h2
      exfalso; omega

theorem scanLeForward_stop (l : List α) (pivot c : Nat) :
    ∀ (fuel b : Nat), c ≤ b + fuel →
    scanLeForward less l pivot c b fuel < c →
    less (lget l pivot) (lget l (scanLeForward less l pivot c b fuel)) = true := by
  intro fuel
  induction fuel with
  | zero =>
    intro b hf h
    simp only [scanLeForward] at h
    exfalso; omega
  | succ fuel ih =>
    intro b hf h
    simp only [scanLeForward] at h ⊢
    by_cases hg : b < c ∧ less (lget l pivot) (lget l b) = false
    · rw [if_pos hg] at h ⊢
      exact ih (b + 1) (by omega) h
    · rw [if_neg hg] at h ⊢
      cases hx : less (lget l pivot) (lget l b)
      · exact absurd ⟨h, hx⟩ hg
      · rfl

theorem scanGtBackward_scanned (l : List α) (pivot b : Nat) :
    ∀ (fuel c i : Nat), scanGtBackward less l pivot b c fuel ≤ i → i < c →
    less (lget l pivot) (lget l i) = true := by
  intro fuel
  induction fuel with
  | zero =>
    intro c i h1 h2
    simp only [scanGtBackward] at h1
    exfalso; omega
  | succ fuel ih =>
    intro c i h1 h2
    simp only [scanGtBackward] at h1
    by_cases hg : b < c ∧ less (lget l pivot) (lget l (c - 1)) = true
    · rw [if_pos hg] at h1
      by_cases hic : i = c - 1
      · subst hic; exact hg.2
      · exact ih (c - 1) i h1 (by omega)
    · rw [if_neg hg] at h1
      exfalso; omega

theorem scanGtBackward_stop (l : List α) (pivot b : Nat) :
    ∀ (fuel c : Nat), c ≤ b + fuel →
    b < scanGtBackward less l pivot b c fuel →
    less (lget l pivot) (lget l (scanGtBackward less l pivot b c fuel - 1)) = false := by
  intro fuel
  induction fuel with
  | zero =>
    intro c hf h
    simp only [scanGtBackward] at h
    exfalso; omega
  | succ fuel ih =>
    intro c hf h
    simp only [scanGtBackward] at h ⊢
    by_cases hg : b < c ∧ less (lget l pivot) (lget l (c - 1)) = true
    · rw [if_pos hg] at h ⊢
      exact ih (c - 1) (by omega) h
    · rw [if_neg hg] at h ⊢
      cases hx : less (lget l pivot) (lget l (c - 1))
      · rfl
      · exact absurd ⟨h, hx⟩ hg

theorem scanEqBackward_scanned (l : List α) (pivot a : Nat) :
    ∀ (fuel b i : Nat), scanEqBackward less l pivot a b fuel ≤ i → i < b →
    less (lget l i) (lget l pivot) = false := by
  intro fuel
  induction fuel with
  | zero =>
    intro b i h1 h2
    simp only [scanEqBackward] at h1
    exfalso; omega
  | succ fuel ih =>
    intro b i h1 h2
    simp only [scanEqBackward] at h1
    by_cases hg : a < b ∧ less (lget l (b - 1)) (lget l pivot) = false
    · rw [if_pos hg] at h1
      by_cases hib : i = b - 1
      · subst hib; exact hg.2
      · exact ih (b - 1) i h1 (by omega)
    · rw [if_neg hg] at h1
      exfalso; omega

theorem scanEqBackward_stop (l : List α) (pivot a : Nat) :
    ∀ (fuel b : Nat), b ≤ a + fuel →
    a < scanEqBackward less l pivot a b fuel →
    less (lget l (scanEqBackward less l pivot a b fuel - 1)) (lget l pivot) = true := by
  intro fuel
  induction fuel with
  | zero =>
    intro b hf h
    simp only [scanEqBackward] at h
    exfalso; omega
  | succ fuel ih =>
    intro b hf h
    simp only [scanEqBackward] at h ⊢
    by_cases hg : a < b ∧ less (lget l (b - 1)) (lget l pivot) = false
    · rw [if_pos hg] at h ⊢
      exact ih (b - 1) (by omega) h
    · rw [if_neg hg] at h ⊢
      cases hx : less (lget l (b - 1)) (lget l pivot)
      · exact absurd ⟨h, hx⟩ hg
      · rfl

/-! #### The main partition loop separates the values -/

theorem partitionLoop_post (piv M : Nat) (pv : α) : ∀ (fuel : Nat) (l : List α) (b c : Nat),
    M < l.length → lget l piv = pv → piv < b → b ≤ c → c ≤ M →
    (∀ i, piv < i → i < b → less pv (lget l i) = false) →
    (∀ i, c ≤ i → i < M → less pv (lget l i) = true) →
    c - b < 2 * fuel →
    lget (partitionLoop less piv l b c fuel).1 piv = pv
    ∧ (partitionLoop less piv l b c fuel).2.1 = (partitionLoop less piv l b c fuel).2.2
    ∧ piv < (partitionLoop less piv l b c fuel).2.1
    ∧ (partitionLoop less piv l b c fuel).2.1 ≤ c
    ∧ (∀ i, piv < i → i < (partitionLoop less piv l b c fuel).2.1 →
        less pv (lget (partitionLoop less piv l b c fuel).1 i) = false)
    ∧ (∀ i, (partitionLoop less piv l b c fuel).2.1 ≤ i → i < M →
        less pv (lget (partitionLoop less piv l b c fuel).1 i) = true)
    ∧ (∀ i, M ≤ i → lget (partitionLoop less piv l b c fuel).1 i = lget l i) := by
  intro fuel
  induction fuel with
  | zero =>
    intro l b c hM hpv hpb hbc hcM hr1 hr2 hf
    exfalso; omega
  | succ fuel ih =>
    intro l b c hM hpv hpb hbc hcM hr1 hr2 hf
    simp only [partitionLoop]
    have hbge := scanLeForward_ge less l piv c (c + 1) b
    have hble := scanLeForward_le_max less l piv c (c + 1) b
    have hcle := scanGtBackward_le less l piv
      (scanLeForward less l piv c b (c + 1)) (c + 1) c
    have hcge := scanGtBackward_ge_min less l piv
      (scanLeForward less l piv c b (c + 1)) (c + 1) c
    have hbstop := scanLeForward_stop less l piv c (c + 1) b (by omega)
    have hcstop := scanGtBackward_stop less l piv
      (scanLeForward less l piv c b (c + 1)) (c + 1) c (by omega)
    split
    case isTrue hge =>
      dsimp only
      refine ⟨hpv, by omega, by omega, by omega, ?_, ?_, fun i _ => rfl⟩
      · intro i h1 h2
        by_cases hib : i < b
        · exact hr1 i h1 hib
        · rw [← hpv]
          exact scanLeForward_scanned less l piv c (c + 1) b i (by omega) h2
      · intro i h1 h2
        by_cases hic : i < c
        · rw [← hpv]
          exact scanGtBackward_scanned less l piv
            (scanLeForward less l piv c b (c + 1)) (c + 1) c i (by omega) hic
        · exact hr2 i (by omega) h2
    case isFalse hlt =>
      have hcb2 : scanLeForward less l piv c b (c + 1) + 2 ≤
          scanGtBackward less l piv (scanLeForward less l piv c b (c + 1)) c (c + 1) := by
        by_cases hx : scanLeForward less l piv c b (c + 1) + 1 =
            scanGtBackward less l piv (scanLeForward less l piv c b (c + 1)) c (c + 1)
        · exfalso
          have h1 := hbstop (by omega)
          have h2 := hcstop (by omega)
          rw [show scanGtBackward less l piv
              (scanLeForward less l piv c b (c + 1)) c (c + 1) - 1 =
              scanLeForward less l piv c b (c + 1) from by omega] at h2
          rw [h1] at h2
          exact Bool.noConfusion h2
        · omega
      obtain ⟨g1, g2, g3, g4, g5, g6, g7⟩ := ih
        (lswap l (scanLeForward less l piv c b (c + 1))
          (scanGtBackward less l piv (scanLeForward less l piv c b (c + 1)) c (c + 1) - 1))
        (scanLeForward less l piv c b (c + 1) + 1)
        (scanGtBackward less l piv (scanLeForward less l piv c b (c + 1)) c (c + 1) - 1)
        (by rw [lswap_length]; exact hM)
        (by
          rw [lget_lswap_other l (by omega) (by omega)]
          exact hpv)
        (by omega) (by omega) (by omega)
        (by
          intro i h1 h2
          by_cases hib : i = scanLeForward less l piv c b (c + 1)
          · subst hib
            rw [lget_lswap_fst l (by omega) (by omega), ← hpv]
            exact hcstop (by omega)
          · rw [lget_lswap_other l (by omega) (by omega)]
            by_cases hib2 : i < b
            · exact hr1 i h1 hib2
            · rw [← hpv]
              exact scanLeForward_scanned less l piv c (c + 1) b i (by omega) (by omega))
        (by
          intro i h1 h2
          by_cases hic : i = scanGtBackward less l piv
              (scanLeForward less l piv c b (c + 1)) c (c + 1) - 1
          · subst hic
            rw [lget_lswap_snd l (by omega) (by omega), ← hpv]
            exact hbstop (by omega)
          · rw [lget_lswap_other l (by omega) (by omega)]
            by_cases hic2 : i < c
            · rw [← hpv]
              exact scanGtBackward_scanned less l piv
                (scanLeForward less l piv c b (c + 1)) (c + 1) c i (by omega) hic2
            · exact hr2 i (by omega) h2)
        (by omega)
      refine ⟨g1, g2, g3, by omega, g5, g6, ?_⟩
      intro i hMi
      rw [g7 i hMi, lget_lswap_other l (by omega) (by omega)]

/-! #### `medianOfThree` sorts its three positions -/

theorem medianTail
    (hasym : ∀ x y : α, less x y = true → less y x = false)
    (l : List α) {m1 m0 m2 : Nat}
    (h1 : m1 < l.length) (h0 : m0 < l.length) (h2 : m2 < l.length)
    (hd10 : m1 ≠ m0) (hd12 : m1 ≠ m2) (hd02 : m0 ≠ m2)
    (inv1 : less (lget l m1) (lget l m0) = false) :
    less
      (lget (if less (lget l m2) (lget l m1) then
          (if less (lget (lswap l m2 m1) m1) (lget (lswap l m2 m1) m0) then
            lswap (lswap l m2 m1) m1 m0
          else lswap l m2 m1)
        else l) m1)
      (lget (if less (lget l m2) (lget l m1) then
          (if less (lget (lswap l m2 m1) m1) (lget (lswap l m2 m1) m0) then
            lswap (lswap l m2 m1) m1 m0
          else lswap l m2 m1)
        else l) m0) = false
    ∧ less
      (lget (if less (lget l m2) (lget l m1) then
          (if less (lget (lswap l m2 m1) m1) (lget (lswap l m2 m1) m0) then
            lswap (lswap l m2 m1) m1 m0
          else lswap l m2 m1)
        else l) m2)
      (lget (if less (lget l m2) (lget l m1) then
          (if less (lget (lswap l m2 m1) m1) (lget (lswap l m2 m1) m0) then
            lswap (lswap l m2 m1) m1 m0
          else lswap l m2 m1)
        else l) m1) = false := by
  by_cases hB : less (lget l m2) (lget l m1) = true
  · rw [if_pos hB]
    have hlen1 : m1 < (lswap l m2 m1).length := by rw [lswap_length]; exact h1
    have hlen0 : m0 < (lswap l m2 m1).length := by rw [lswap_length]; exact h0
    have e1 : lget (lswap l m2 m1) m1 = lget l m2 := lget_lswap_snd l h2 h1
    have e0 : lget (lswap l m2 m1) m0 = lget l m0 :=
      lget_lswap_other l hd02 (Ne.symm hd10)
    have e2 : lget (lswap l m2 m1) m2 = lget l m1 := lget_lswap_fst l h2 h1
    by_cases hC : less (lget (lswap l m2 m1) m1) (lget (lswap l m2 m1) m0) = true
    · rw [if_pos hC]
      have f1 : lget (lswap (lswap l m2 m1) m1 m0) m1 = lget l m0 := by
        rw [lget_lswap_fst (lswap l m2 m1) hlen1 hlen0, e0]
      have f0 : lget (lswap (lswap l m2 m1) m1 m0) m0 = lget l m2 := by
        rw [lget_lswap_snd (lswap l m2 m1) hlen1 hlen0, e1]
      have f2 : lget (lswap (lswap l m2 m1) m1 m0) m2 = lget l m1 := by
        rw [lget_lswap_other (lswap l m2 m1) (Ne.symm hd12) (Ne.symm hd02), e2]
      rw [e1, e0] at hC
      constructor
      · rw [f1, f0]
        exact hasym _ _ hC
      · rw [f2, f1]
        exact inv1
    · rw [if_neg hC]
      constructor
      · cases hx : less (lget (lswap l m2 m1) m1) (lget (lswap l m2 m1) m0)
        · rfl
        · exact absurd hx hC
      · rw [e2, e1]
        exact hasym _ _ hB
  · rw [if_neg hB]
    constructor
    · exact inv1
    · cases hx : less (lget l m2) (lget l m1)
      · rfl
      · exact absurd hx hB

theorem medianOfThree_post
    (hasym : ∀ x y : α, less x y = true → less y x = false)
    (l : List α) {m1 m0 m2 : Nat}
    (h1 : m1 < l.length) (h0 : m0 < l.length) (h2 : m2 < l.length)
    (hd10 : m1 ≠ m0) (hd12 : m1 ≠ m2) (hd02 : m0 ≠ m2) :
    less (lget (medianOfThree less l m1 m0 m2) m1)
      (lget (medianOfThree less l m1 m0 m2) m0) = false
    ∧ less (lget (medianOfThree less l m1 m0 m2) m2)
      (lget (medianOfThree less l m1 m0 m2) m1) = false := by
  simp only [medianOfThree]
  by_cases hA : less (lget l m1) (lget l m0) = true
  · rw [if_pos hA]
    refine medianTail less hasym (lswap l m1 m0) ?_ ?_ ?_ hd10 hd12 hd02 ?_
    · rw [lswap_length]; exact h1
    · rw [lswap_length]; exact h0
    · rw [lswap_length]; exact h2
    · rw [lget_lswap_fst l h1 h0, lget_lswap_snd l h1 h0]
      exact hasym _ _ hA
  · rw [if_neg hA]
    refine medianTail less hasym l h1 h0 h2 hd10 hd12 hd02 ?_
    cases hx : less (lget l m1) (lget l m0)
    · rfl
    · exact absurd hx hA

/-! #### The duplicate-protection loop keeps the three regions -/

theorem protectLoop_post
    (hasym : ∀ x y : α, less x y = true → less y x = false)
    (pv : α) (lo hi C : Nat) :
    ∀ (fuel : Nat) (l : List α) (a b : Nat),
    hi ≤ l.length → lo < a → b ≤ C →
    PartState less pv lo hi l b C →
    PartState less pv lo hi (protectLoop less lo l a b fuel).1
      (protectLoop less lo l a b fuel).2.2 C := by
  intro fuel
  induction fuel with
  | zero =>
    intro l a b hlen ha hbC hst
    exact hst
  | succ fuel ih =>
    intro l a b hlen ha hbC hst
    obtain ⟨s1, s2, s3, s4, s5, s6, s7⟩ := hst
    simp only [protectLoop]
    have hble := scanEqBackward_le less l lo a (b + 1) b
    have hbgemin := scanEqBackward_ge_min less l lo a (b + 1) b
    have hage := scanLtForward_ge less l lo
      (scanEqBackward less l lo a b (b + 1))
      (scanEqBackward less l lo a b (b + 1) + 1) a
    have hastop := scanLtForward_stop less l lo
      (scanEqBackward less l lo a b (b + 1))
      (scanEqBackward less l lo a b (b + 1) + 1) a (by omega)
    have hbstop := scanEqBackward_stop less l lo a (b + 1) b (by omega)
    have hscan : ∀ i, scanEqBackward less l lo a b (b + 1) ≤ i → i < b →
        less (lget l i) pv = false := by
      intro i hi1 hi2
      have h := scanEqBackward_scanned less l lo a (b + 1) b i hi1 hi2
      rwa [s1] at h
    split
    case isTrue hge =>
      dsimp only
      refine ⟨s1, by omega, by omega, s4, ?_, ?_, s7⟩
      · intro i hi1 hi2
        exact s5 i hi1 (by omega)
      · intro i hi1 hi2
        by_cases hib : i < b
        · exact ⟨s5 i (by omega) hib, hscan i (by omega) hib⟩
        · exact s6 i (by omega) hi2
    case isFalse hlt =>
      have hane : scanLtForward less l lo (scanEqBackward less l lo a b (b + 1)) a
          (scanEqBackward less l lo a b (b + 1) + 1) + 1 <
          scanEqBackward less l lo a b (b + 1) := by
        by_cases hx : scanLtForward less l lo (scanEqBackward less l lo a b (b + 1)) a
            (scanEqBackward less l lo a b (b + 1) + 1) =
            scanEqBackward less l lo a b (b + 1) - 1
        · exfalso
          have h1 := hastop (by omega)
          have h2 := hbstop (by omega)
          rw [← hx] at h2
          rw [s1] at h1 h2
          rw [h1] at h2
          exact Bool.noConfusion h2
        · omega
      refine ih _ _ _ ?_ ?_ ?_ ?_
      · rw [lswap_length]; exact hlen
      · omega
      · omega
      · refine ⟨?_, by omega, by omega, s4, ?_, ?_, ?_⟩
        · rw [lget_lswap_other l (by omega) (by omega)]
          exact s1
        · intro i hi1 hi2
          by_cases hia : i = scanLtForward less l lo (scanEqBackward less l lo a b (b + 1)) a
              (scanEqBackward less l lo a b (b + 1) + 1)
          · subst hia
            rw [lget_lswap_fst l (by omega) (by omega)]
            have h2 := hbstop (by omega)
            rw [s1] at h2
            exact hasym _ _ h2
          · rw [lget_lswap_other l (by omega) (by omega)]
            exact s5 i hi1 (by omega)
        · intro i hi1 hi2
          by_cases hib : i = scanEqBackward less l lo a b (b + 1) - 1
          · subst hib
            rw [lget_lswap_snd l (by omega) (by omega)]
            constructor
            · exact s5 _ (by omega) (by omega)
            · rw [← s1]
              exact hastop (by omega)
          · rw [lget_lswap_other l (by omega) (by omega)]
            by_cases hib2 : i < b
            · exact ⟨s5 i (by omega) hib2, hscan i (by omega) hib2⟩
            · exact s6 i (by omega) hi2
        · intro i hi1 hi2
          rw [lget_lswap_other l (by omega) (by omega)]
          exact s7 i hi1 hi2

/-! #### The duplicate-detection block keeps the three regions -/

theorem dupsAdjust_post
    (hasym : ∀ x y : α, less x y = true → less y x = false)
    (l : List α) (pv : α) {m lo hi b c : Nat}
    (hlen : hi ≤ l.length) (h12 : 12 < hi - lo) (hmval : m = (lo + hi) / 2)
    (hpv : lget l lo = pv) (hbceq : b = c) (hlob : lo < b) (hchi : c ≤ hi - 1)
    (hreg1 : ∀ i, lo < i → i < b → less pv (lget l i) = false)
    (hreg2 : ∀ i, c ≤ i → i < hi - 1 → less pv (lget l i) = true)
    (hregM : less (lget l (hi - 1)) pv = false) :
    PartState less pv lo hi (dupsAdjust less l lo m lo hi b c).1
      (dupsAdjust less l lo m lo hi b c).2.1 (dupsAdjust less l lo m lo hi b c).2.2.1 := by
  have hreg2' : ∀ i, c ≤ i → i < hi → less (lget l i) pv = false := by
    intro i h1 h2
    by_cases hiM : i = hi - 1
    · subst hiM; exact hregM
    · exact hasym _ _ (hreg2 i h1 (by omega))
  simp only [dupsAdjust]
  split
  case isTrue h5 =>
    dsimp only
    exact ⟨hpv, hlob, by omega, by omega, hreg1,
      by intro i h1 h2; exfalso; omega, hreg2'⟩
  case isFalse h5 =>
    split
    case isTrue h4 =>
      have hmb : m + 1 < b := by omega
      have hlom : lo < m := by omega
      have hbge : lo + 15 ≤ b := by omega
      have hc5 : c + 5 ≤ hi := by omega
      have hcL : c < l.length := by omega
      have hML : hi - 1 < l.length := by omega
      by_cases hC1 : less (lget l lo) (lget l (hi - 1)) = false
      · rw [if_pos hC1]
        dsimp only
        have vE : ∀ k, k ≠ c → k ≠ hi - 1 →
            lget (lswap l c (hi - 1)) k = lget l k :=
          fun k hk1 hk2 => lget_lswap_other l hk1 hk2
        have vEc : lget (lswap l c (hi - 1)) c = lget l (hi - 1) :=
          lget_lswap_fst l hcL hML
        have vEM : lget (lswap l c (hi - 1)) (hi - 1) = lget l c :=
          lget_lswap_snd l hcL hML
        have hpvE : lget (lswap l c (hi - 1)) lo = pv := by
          rw [vE lo (by omega) (by omega)]; exact hpv
        have hrm : less pv (lget l (hi - 1)) = false := by
          rw [← hpv]; exact hC1
        have hreg1E : ∀ i, lo < i → i < b →
            less pv (lget (lswap l c (hi - 1)) i) = false := by
          intro i h1 h2
          rw [vE i (by omega) (by omega)]
          exact hreg1 i h1 h2
        have hmidE : ∀ i, b ≤ i → i < c + 1 →
            less pv (lget (lswap l c (hi - 1)) i) = false
            ∧ less (lget (lswap l c (hi - 1)) i) pv = false := by
          intro i h1 h2
          have hic : i = c := by omega
          subst hic
          rw [vEc]
          exact ⟨hrm, hregM⟩
        have hreg2E : ∀ i, c + 1 ≤ i → i < hi →
            less (lget (lswap l c (hi - 1)) i) pv = false := by
          intro i h1 h2
          by_cases hiM : i = hi - 1
          · subst hiM
            rw [vEM]
            exact hasym _ _ (hreg2 c (Nat.le_refl c) (by omega))
          · rw [vE i (by omega) (by omega)]
            exact hreg2' i (by omega) h2
        have hswL : ∀ j : Nat, j < l.length → j < (lswap l c (hi - 1)).length := by
          intro j hj
          rw [lswap_length]; exact hj
        by_cases hC2 : less (lget (lswap l c (hi - 1)) (b - 1))
            (lget (lswap l c (hi - 1)) lo) = false
        · rw [if_pos hC2]
          dsimp only
          have hc2v : less (lget l (b - 1)) pv = false := by
            rw [vE (b - 1) (by omega) (by omega), hpvE] at hC2
            exact hC2
          by_cases hC3 : less (lget (lswap l c (hi - 1)) m)
              (lget (lswap l c (hi - 1)) lo) = false
          · rw [if_pos hC3]
            dsimp only
            have hc3v : less (lget l m) pv = false := by
              rw [vE m (by omega) (by omega), hpvE] at hC3
              exact hC3
            refine ⟨?_, by omega, by omega, by omega, ?_, ?_, ?_⟩
            · rw [lget_lswap_other (lswap l c (hi - 1)) (by omega) (by omega)]
              exact hpvE
            · intro i h1 h2
              by_cases him : i = m
              · rw [him]
                rw [lget_lswap_fst (lswap l c (hi - 1)) (hswL m (by omega))
                  (hswL (b - 1 - 1) (by omega))]
                rw [vE (b - 1 - 1) (by omega) (by omega)]
                exact hreg1 (b - 1 - 1) (by omega) (by omega)
              · rw [lget_lswap_other (lswap l c (hi - 1)) (by omega) (by omega)]
                exact hreg1E i h1 (by omega)
            · intro i h1 h2
              by_cases hi1 : i = b - 1 - 1
              · subst hi1
                rw [lget_lswap_snd (lswap l c (hi - 1)) (hswL m (by omega))
                  (hswL (b - 1 - 1) (by omega))]
                rw [vE m (by omega) (by omega)]
                exact ⟨hreg1 m hlom (by omega), hc3v⟩
              · by_cases hi2 : i = b - 1
                · subst hi2
                  rw [lget_lswap_other (lswap l c (hi - 1)) (by omega) (by omega)]
                  rw [vE (b - 1) (by omega) (by omega)]
                  exact ⟨hreg1 (b - 1) (by omega) (by omega), hc2v⟩
                · have hic : i = c := by omega
                  rw [hic]
                  rw [lget_lswap_other (lswap l c (hi - 1)) (by omega) (by omega)]
                  rw [vEc]
                  exact ⟨hrm, hregM⟩
            · intro i h1 h2
              rw [lget_lswap_other (lswap l c (hi - 1)) (by omega) (by omega)]
              exact hreg2E i h1 h2
          · rw [if_neg hC3]
            dsimp only
            refine ⟨hpvE, by omega, by omega, by omega, ?_, ?_, hreg2E⟩
            · intro i h1 h2
              exact hreg1E i h1 (by omega)
            · intro i h1 h2
              by_cases hi2 : i = b - 1
              · subst hi2
                rw [vE (b - 1) (by omega) (by omega)]
                exact ⟨hreg1 (b - 1) (by omega) (by omega), hc2v⟩
              · exact hmidE i (by omega) h2
        · rw [if_neg hC2]
          dsimp only
          by_cases hC3 : less (lget (lswap l c (hi - 1)) m)
              (lget (lswap l c (hi - 1)) lo) = false
          · rw [if_pos hC3]
            dsimp only
            have hc3v : less (lget l m) pv = false := by
              rw [vE m (by omega) (by omega), hpvE] at hC3
              exact hC3
            refine ⟨?_, by omega, by omega, by omega, ?_, ?_, ?_⟩
            · rw [lget_lswap_other (lswap l c (hi - 1)) (by omega) (by omega)]
              exact hpvE
            · intro i h1 h2
              by_cases him : i = m
              · rw [him]
                rw [lget_lswap_fst (lswap l c (hi - 1)) (hswL m (by omega))
                  (hswL (b - 1) (by omega))]
                rw [vE (b - 1) (by omega) (by omega)]
                exact hreg1 (b - 1) (by omega) (by omega)
              · rw [lget_lswap_other (lswap l c (hi - 1)) (by omega) (by omega)]
                exact hreg1E i h1 (by omega)
            · intro i h1 h2
              by_cases hi1 : i = b - 1
              · subst hi1
                rw [lget_lswap_snd (lswap l c (hi - 1)) (hswL m (by omega))
                  (hswL (b - 1) (by omega))]
                rw [vE m (by omega) (by omega)]
                exact ⟨hreg1 m hlom (by omega), hc3v⟩
              · have hic : i = c := by omega
                rw [hic]
                rw [lget_lswap_other (lswap l c (hi - 1)) (by omega) (by omega)]
                rw [vEc]
                exact ⟨hrm, hregM⟩
            · intro i h1 h2
              rw [lget_lswap_other (lswap l c (hi - 1)) (by omega) (by omega)]
              exact hreg2E i h1 h2
          · rw [if_neg hC3]
            dsimp only
            exact ⟨hpvE, by omega, by omega, by omega, hreg1E, hmidE, hreg2E⟩
      · rw [if_neg hC1]
        dsimp only
        have hrm' : less pv (lget l (hi - 1)) = true := by
          rw [← hpv]
          cases hx : less (lget l lo) (lget l (hi - 1))
          · exact absurd hx hC1
          · rfl
        by_cases hC2 : less (lget l (b - 1)) (lget l lo) = false
        · rw [if_pos hC2]
          dsimp only
          have hc2v : less (lget l (b - 1)) pv = false := by
            rw [hpv] at hC2
            exact hC2
          by_cases hC3 : less (lget l m) (lget l lo) = false
          · rw [if_pos hC3]
            dsimp only
            have hc3v : less (lget l m) pv = false := by
              rw [hpv] at hC3
              exact hC3
            refine ⟨?_, by omega, by omega, by omega, ?_, ?_, ?_⟩
            · rw [lget_lswap_other l (by omega) (by omega)]
              exact hpv
            · intro i h1 h2
              by_cases him : i = m
              · rw [him]
                rw [lget_lswap_fst l (by omega) (by omega)]
                exact hreg1 (b - 1 - 1) (by omega) (by omega)
              · rw [lget_lswap_other l (by omega) (by omega)]
                exact hreg1 i h1 (by omega)
            · intro i h1 h2
              by_cases hi1 : i = b - 1 - 1
              · subst hi1
                rw [lget_lswap_snd l (by omega) (by omega)]
                exact ⟨hreg1 m hlom (by omega), hc3v⟩
              · have hi2 : i = b - 1 := by omega
                subst hi2
                rw [lget_lswap_other l (by omega) (by omega)]
                exact ⟨hreg1 (b - 1) (by omega) (by omega), hc2v⟩
            · intro i h1 h2
              rw [lget_lswap_other l (by omega) (by omega)]
              exact hreg2' i (by omega) h2
          · rw [if_neg hC3]
            dsimp only
            refine ⟨hpv, by omega, by omega, by omega, ?_, ?_, ?_⟩
            · intro i h1 h2
              exact hreg1 i h1 (by omega)
            · intro i h1 h2
              have hi2 : i = b - 1 := by omega
              subst hi2
              exact ⟨hreg1 (b - 1) (by omega) (by omega), hc2v⟩
            · intro i h1 h2
              exact hreg2' i (by omega) h2
        · rw [if_neg hC2]
          dsimp only
          by_cases hC3 : less (lget l m) (lget l lo) = false
          · rw [if_pos hC3]
            dsimp only
            have hc3v : less (lget l m) pv = false := by
              rw [hpv] at hC3
              exact hC3
            refine ⟨?_, by omega, by omega, by omega, ?_, ?_, ?_⟩
            · rw [lget_lswap_other l (by omega) (by omega)]
              exact hpv
            · intro i h1 h2
              by_cases him : i = m
              · rw [him]
                rw [lget_lswap_fst l (by omega) (by omega)]
                exact hreg1 (b - 1) (by omega) (by omega)
              · rw [lget_lswap_other l (by omega) (by omega)]
                exact hreg1 i h1 (by omega)
            · intro i h1 h2
              have hi1 : i = b - 1 := by omega
              subst hi1
              rw [lget_lswap_snd l (by omega) (by omega)]
              exact ⟨hreg1 m hlom (by omega), hc3v⟩
            · intro i h1 h2
              rw [lget_lswap_other l (by omega) (by omega)]
              exact hreg2' i (by omega) h2
          · rw [if_neg hC3]
            dsimp only
            exact ⟨hpv, by omega, by omega, by omega, hreg1,
              by intro i h1 h2; exfalso; omega, hreg2'⟩
    case isFalse h4 =>
      dsimp only
      exact ⟨hpv, hlob, by omega, by omega, hreg1,
        by intro i h1 h2; exfalso; omega, hreg2'⟩

theorem protectStage_post
    (hasym : ∀ x y : α, less x y = true → less y x = false)
    (pv : α) (lo hi C : Nat) (l : List α) (a b : Nat) (protect : Bool)
    (hlen : hi ≤ l.length) (ha : lo < a) (hbC : b ≤ C)
    (hst : PartState less pv lo hi l b C) :
    PartState less pv lo hi (protectStage less lo l a b protect).1
      (protectStage less lo l a b protect).2 C := by
  simp only [protectStage]
  split
  · exact protectLoop_post less hasym pv lo hi C (b + 1) l a b hlen ha hbC hst
  · exact hst

/-! #### Lengths through the pivot stages -/

theorem medianOfThree_length (l : List α) (m1 m0 m2 : Nat) :
    (medianOfThree less l m1 m0 m2).length = l.length := by
  simp only [medianOfThree]
  split_ifs <;> simp only [lswap_length]

theorem nintherStage_length (l : List α) (lo hi m : Nat) :
    (nintherStage less l lo hi m).length = l.length := by
  simp only [nintherStage]
  split
  · simp only [medianOfThree_length]
  · rfl

theorem partitionLoop_length (pivot : Nat) : ∀ (fuel : Nat) (l : List α) (b c : Nat),
    (partitionLoop less pivot l b c fuel).1.length = l.length := by
  intro fuel
  induction fuel with
  | zero => intro l b c; rfl
  | succ fuel ih =>
    intro l b c
    simp only [partitionLoop]
    split
    · rfl
    · rw [ih, lswap_length]

theorem dupsAdjust_length (l : List α) (pivot m lo hi b c : Nat) :
    (dupsAdjust less l pivot m lo hi b c).1.length = l.length := by
  simp only [dupsAdjust]
  split_ifs <;> dsimp only <;> simp only [lswap_length]

theorem protectLoop_length (pivot : Nat) : ∀ (fuel : Nat) (l : List α) (a b : Nat),
    (protectLoop less pivot l a b fuel).1.length = l.length := by
  intro fuel
  induction fuel with
  | zero => intro l a b; rfl
  | succ fuel ih =>
    intro l a b
    simp only [protectLoop]
    split
    · rfl
    · rw [ih, lswap_length]

theorem protectStage_length (pivot : Nat) (l : List α) (a b : Nat) (protect : Bool) :
    (protectStage less pivot l a b protect).1.length = l.length := by
  simp only [protectStage]
  split
  · exact protectLoop_length less pivot (b + 1) l a b
  · rfl

/-! #### `doPivot` separates the values around a pivot -/

theorem doPivot_post
    (hasym : ∀ x y : α, less x y = true → less y x = false)
    (l : List α) {lo hi : Nat} (h12 : 12 < hi - lo) (hlen : hi ≤ l.length) :
    ∃ pv : α,
      lo ≤ (doPivot less l lo hi).2.1
      ∧ (doPivot less l lo hi).2.1 < (doPivot less l lo hi).2.2
      ∧ (doPivot less l lo hi).2.2 ≤ hi
      ∧ (∀ i, lo ≤ i → i < (doPivot less l lo hi).2.1 →
          less pv (lget (doPivot less l lo hi).1 i) = false)
      ∧ (∀ i, (doPivot less l lo hi).2.1 ≤ i → i < (doPivot less l lo hi).2.2 →
          less pv (lget (doPivot less l lo hi).1 i) = false
          ∧ less (lget (doPivot less l lo hi).1 i) pv = false)
      ∧ (∀ i, (doPivot less l lo hi).2.2 ≤ i → i < hi →
          less (lget (doPivot less l lo hi).1 i) pv = false) := by
  simp only [doPivot]
  generalize hm : (lo + hi) / 2 = m
  generalize hl1 : nintherStage less l lo hi m = l1
  have hlen1 : l1.length = l.length := by
    rw [← hl1]
    exact nintherStage_length less l lo hi m
  generalize hl2 : medianOfThree less l1 lo m (hi - 1) = l2
  have hlen2 : l2.length = l.length := by
    rw [← hl2, medianOfThree_length, hlen1]
  have hmed : less (lget l2 lo) (lget l2 m) = false
      ∧ less (lget l2 (hi - 1)) (lget l2 lo) = false := by
    rw [← hl2]
    exact medianOfThree_post less hasym l1 (by omega) (by omega) (by omega)
      (by omega) (by omega) (by omega)
  generalize hA : scanLtForward less l2 lo (hi - 1) (lo + 1) hi = A
  have hA1 : lo + 1 ≤ A := by
    rw [← hA]
    exact scanLtForward_ge less l2 lo (hi - 1) hi (lo + 1)
  have hA2 : A ≤ hi - 1 := by
    rw [← hA]
    have := scanLtForward_le_max less l2 lo (hi - 1) hi (lo + 1)
    omega
  have hAscan : ∀ i, lo + 1 ≤ i → i < A → less (lget l2 i) (lget l2 lo) = true := by
    rw [← hA]
    exact fun i h1 h2 => scanLtForward_scanned less l2 lo (hi - 1) hi (lo + 1) i h1 h2
  generalize hp : partitionLoop less lo l2 A (hi - 1) (hi + 1) = p
  have hlenp : p.1.length = l.length := by
    rw [← hp, partitionLoop_length, hlen2]
  have hpp : lget p.1 lo = lget l2 lo
      ∧ p.2.1 = p.2.2
      ∧ lo < p.2.1
      ∧ p.2.1 ≤ hi - 1
      ∧ (∀ i, lo < i → i < p.2.1 → less (lget l2 lo) (lget p.1 i) = false)
      ∧ (∀ i, p.2.1 ≤ i → i < hi - 1 → less (lget l2 lo) (lget p.1 i) = true)
      ∧ (∀ i, hi - 1 ≤ i → lget p.1 i = lget l2 i) := by
    rw [← hp]
    exact partitionLoop_post less lo (hi - 1) (lget l2 lo) (hi + 1) l2 A (hi - 1)
      (by omega) rfl (by omega) (by omega) (Nat.le_refl _)
      (fun i h1 h2 => hasym _ _ (hAscan i (by omega) h2))
      (fun i h1 h2 => absurd h2 (by omega))
      (by omega)
  obtain ⟨pp1, pp2, pp3, pp4, pp5, pp6, pp7⟩ := hpp
  generalize hq : dupsAdjust less p.1 lo m lo hi p.2.1 p.2.2 = q
  have hlenq : q.1.length = l.length := by
    rw [← hq, dupsAdjust_length, hlenp]
  have hqst : PartState less (lget l2 lo) lo hi q.1 q.2.1 q.2.2.1 := by
    rw [← hq]
    refine dupsAdjust_post less hasym p.1 (lget l2 lo) (by omega) h12 hm.symm
      pp1 pp2 pp3 (by omega) pp5 ?_ ?_
    · intro i h1 h2
      exact pp6 i (by omega) h2
    · rw [pp7 (hi - 1) (Nat.le_refl _)]
      exact hmed.2
  obtain ⟨t1, t2, t3, t4, t5, t6, t7⟩ := hqst
  generalize hr : protectStage less lo q.1 A q.2.1 q.2.2.2 = r
  have hlenr : r.1.length = l.length := by
    rw [← hr, protectStage_length, hlenq]
  have hrst : PartState less (lget l2 lo) lo hi r.1 r.2 q.2.2.1 := by
    rw [← hr]
    exact protectStage_post less hasym (lget l2 lo) lo hi q.2.2.1 q.1 A q.2.1 q.2.2.2
      (by omega) (by omega) t3 ⟨t1, t2, t3, t4, t5, t6, t7⟩
  obtain ⟨u1, u2, u3, u4, u5, u6, u7⟩ := hrst
  refine ⟨lget l2 lo, by omega, by omega, u4, ?_, ?_, ?_⟩
  · intro i h1 h2
    by_cases hilo : i = lo
    · rw [hilo, lget_lswap_fst r.1 (by omega) (by omega)]
      exact u5 _ (by omega) (by omega)
    · rw [lget_lswap_other r.1 (by omega) (by omega)]
      exact u5 i (by omega) (by omega)
  · intro i h1 h2
    by_cases himid : i = r.2 - 1
    · rw [himid, lget_lswap_snd r.1 (by omega) (by omega), u1]
      exact ⟨less_self_false less hasym _, less_self_false less hasym _⟩
    · rw [lget_lswap_other r.1 (by omega) (by omega)]
      exact u6 i (by omega) h2
  · intro i h1 h2
    rw [lget_lswap_other r.1 (by omega) (by omega)]
    exact u7 i h1 h2

end GoSortCorrect

/-! ### C3, part three: order facts for the two comparators -/

end Dir2opds
